import Mathlib

/-!
Verification of the response-interpretation-and-execution pipeline of
`data_formulator` (files `agents/agent_utils.py` and
`agents/agent_sql_data_transform.py`).

Texts are embedded as `List Char` (Python `str` indexed by character);
Python's `-1` sentinel for "not found" is kept as an `Int` result.
The external JSON library (`json.loads`) and the DuckDB connection are
external collaborators; they are modelled respectively by an executable
recursive-descent parser over a JSON fragment and by an oracle record of
statement outcomes (see `Json.parseChars` and `Conn` below).
-/

set_option maxHeartbeats 1000000

namespace DataFormulator

/-! ## BracketMatcher: `find_matching_bracket` (agent_utils.py lines 89-109) -/

inductive BracketType where
  | curly : BracketType
  | square : BracketType
deriving DecidableEq

def openChar : BracketType → Char
  | .curly => '\x7b'
  | .square => '['

def closeChar : BracketType → Char
  | .curly => '\x7d'
  | .square => ']'

/-- Loop body of `find_matching_bracket`: iterates over `text[index:]`
(`for index in range(start_index, len(text))`), pushing on the open bracket,
popping on the close bracket; returns the index when the stack empties after a
pop, `-1` on a close bracket with an empty stack, and `-1` at the end of the
text. -/
def fmbGo (ob cb : Char) : List Char → Nat → List Char → Int
  | [], _, _ => -1
  | c :: rest, idx, stack =>
    if c = ob then fmbGo ob cb rest (idx + 1) (c :: stack)
    else if c = cb then
      match stack with
      | [] => -1
      | _ :: stack' => if stack' = [] then (idx : Int) else fmbGo ob cb rest (idx + 1) stack'
    else fmbGo ob cb rest (idx + 1) stack

/-- `find_matching_bracket(text, start_index, bracket_type)`: index of the
matching closing bracket, or `-1`. (The Python `ValueError` branch for an
invalid `bracket_type` string is made unrepresentable by the `BracketType`
type; both call sites pass only `'curly'`/`'square'`.) -/
def find_matching_bracket (text : List Char) (start_index : Nat) (bracket_type : BracketType) : Int :=
  fmbGo (openChar bracket_type) (closeChar bracket_type) (text.drop start_index) start_index []

/-- Instrumented copy of the `find_matching_bracket` loop: the second component
records whether the early `return -1` branch (a closing bracket seen with an
empty stack) was ever taken. -/
def fmbGoI (ob cb : Char) : List Char → Nat → List Char → Int × Bool
  | [], _, _ => (-1, false)
  | c :: rest, idx, stack =>
    if c = ob then fmbGoI ob cb rest (idx + 1) (c :: stack)
    else if c = cb then
      match stack with
      | [] => (-1, true)
      | _ :: stack' => if stack' = [] then ((idx : Int), false) else fmbGoI ob cb rest (idx + 1) stack'
    else fmbGoI ob cb rest (idx + 1) stack

def find_matching_bracketI (text : List Char) (start_index : Nat) (bracket_type : BracketType) : Int × Bool :=
  fmbGoI (openChar bracket_type) (closeChar bracket_type) (text.drop start_index) start_index []

/-! ## Python `str.find(ch, start)` -/

/-- Scan of `rem` (the suffix of the text starting at index `i`) for the first
occurrence of `c`; returns its index in the whole text, or `-1`. -/
def findFromGo (c : Char) : List Char → Nat → Int
  | [], _ => -1
  | x :: rest, i => if x = c then (i : Int) else findFromGo c rest (i + 1)

/-- `text.find(c, start_index)`. -/
def str_find (text : List Char) (c : Char) (start_index : Nat) : Int :=
  findFromGo c (text.drop start_index) start_index

/-- Python slice `text[a:b]`. -/
def sliceList (text : List Char) (a b : Nat) : List Char :=
  (text.drop a).take (b - a)

/-- The head of the `extract_json_objects` loop (agent_utils.py lines 118-133):
the earliest unconsumed `'{'` or `'['` from the cursor, together with the
bracket kind, or `none` when neither occurs (the `break`). -/
def earliestBracket (text : List Char) (start_index : Nat) : Option (Nat × BracketType) :=
  let object_start := str_find text '\x7b' start_index
  let array_start := str_find text '[' start_index
  if object_start = -1 ∧ array_start = -1 then none
  else if object_start = -1 then some (array_start.toNat, BracketType.square)
  else if array_start = -1 then some (object_start.toNat, BracketType.curly)
  else
    let m := min object_start array_start
    some (m.toNat, if m = array_start then BracketType.square else BracketType.curly)

/-! ## JSON value model and a model of the external parser

`extract_json_objects` delegates the actual parsing to the external library
call `json.loads`.  Modelled from the spec: "attempt to parse it as JSON" — the
external parser is modelled by an executable recursive-descent parser over the
fragment of JSON with integer numbers, `null`, booleans, strings with the
single-character escapes `\" \\ \/ \n \t \r`, arrays and objects, with
standard whitespace skipped between tokens and full consumption required. -/

inductive Json where
  | null : Json
  | bool : Bool → Json
  | num : Int → Json
  | str : List Char → Json
  | arr : List Json → Json
  | obj : List (List Char × Json) → Json

def isWsChar (c : Char) : Bool :=
  c = ' ' || c = '\n' || c = '\t' || c = '\r'

def skipWs : List Char → List Char
  | [] => []
  | c :: rest => if isWsChar c then skipWs rest else c :: rest

def unescape (c : Char) : Option Char :=
  if c = '"' then some '"'
  else if c = '\\' then some '\\'
  else if c = '/' then some '/'
  else if c = 'n' then some '\n'
  else if c = 't' then some '\t'
  else if c = 'r' then some '\r'
  else none

/-- Body of a JSON string literal after the opening quote: the decoded
characters and the remainder after the closing quote. -/
def parseStrBody : List Char → Option (List Char × List Char)
  | [] => none
  | c :: rest =>
    if c = '"' then some ([], rest)
    else if c = '\\' then
      match rest with
      | [] => none
      | e :: rest' =>
        match unescape e with
        | some u =>
          match parseStrBody rest' with
          | some (s, r) => some (u :: s, r)
          | none => none
        | none => none
    else
      match parseStrBody rest with
      | some (s, r) => some (c :: s, r)
      | none => none

def takeDigits : List Char → List Char × List Char
  | [] => ([], [])
  | c :: rest =>
    if c.isDigit then
      let p := takeDigits rest
      (c :: p.1, p.2)
    else ([], c :: rest)

def parseNatChars (ds : List Char) : Nat :=
  ds.foldl (fun a c => a * 10 + (c.toNat - 48)) 0

mutual

def parseVal : Nat → List Char → Option (Json × List Char)
  | 0, _ => none
  | fuel + 1, cs =>
    match skipWs cs with
    | [] => none
    | c :: rest =>
      if c = '\x7b' then
        match parseObjFields fuel rest with
        | some (fs, r) => some (Json.obj fs, r)
        | none => none
      else if c = '[' then
        match parseArrItems fuel rest with
        | some (vs, r) => some (Json.arr vs, r)
        | none => none
      else if c = '"' then
        match parseStrBody rest with
        | some (s, r) => some (Json.str s, r)
        | none => none
      else if c = '-' then
        let p := takeDigits rest
        if p.1 = [] then none
        else some (Json.num (-(parseNatChars p.1 : Int)), p.2)
      else if c.isDigit then
        let p := takeDigits (c :: rest)
        some (Json.num ((parseNatChars p.1 : Int)), p.2)
      else if c = 'n' then
        match rest with
        | 'u' :: 'l' :: 'l' :: r => some (Json.null, r)
        | _ => none
      else if c = 't' then
        match rest with
        | 'r' :: 'u' :: 'e' :: r => some (Json.bool true, r)
        | _ => none
      else if c = 'f' then
        match rest with
        | 'a' :: 'l' :: 's' :: 'e' :: r => some (Json.bool false, r)
        | _ => none
      else none

/-- Items of an array after the opening `[`: either an immediate `]`, or a
comma-separated sequence of values closed by `]`. -/
def parseArrItems : Nat → List Char → Option (List Json × List Char)
  | 0, _ => none
  | fuel + 1, cs =>
    match skipWs cs with
    | [] => none
    | c :: r =>
      if c = ']' then some ([], r)
      else
        match parseVal fuel (c :: r) with
        | none => none
        | some (v, rest1) =>
          match skipWs rest1 with
          | ',' :: rest2 =>
            match parseArrItems fuel rest2 with
            | some (vs, rest3) => some (v :: vs, rest3)
            | none => none
          | ']' :: rest2 => some ([v], rest2)
          | _ => none

/-- Fields of an object after the opening brace: either an immediate closing
brace, or a comma-separated sequence of `"key": value` pairs closed by it. -/
def parseObjFields : Nat → List Char → Option (List (List Char × Json) × List Char)
  | 0, _ => none
  | fuel + 1, cs =>
    match skipWs cs with
    | [] => none
    | c :: r =>
      if c = '\x7d' then some ([], r)
      else if c = '"' then
        match parseStrBody r with
        | none => none
        | some (k, rest1) =>
          match skipWs rest1 with
          | ':' :: rest2 =>
            match parseVal fuel rest2 with
            | none => none
            | some (v, rest3) =>
              match skipWs rest3 with
              | ',' :: rest4 =>
                match parseObjFields fuel rest4 with
                | some (fs, rest5) => some ((k, v) :: fs, rest5)
                | none => none
              | '\x7d' :: rest4 => some ([(k, v)], rest4)
              | _ => none
          | _ => none
      else none

end

/-- Model of `json.loads` on a character list: parse one value, require that
only whitespace remains.  The fuel `2 * length + 2` is sufficient for every
input (each fuel level consumes at least one character every two levels). -/
def Json.parseChars (cs : List Char) : Option Json :=
  match parseVal (2 * cs.length + 2) cs with
  | some (v, r) => if skipWs r = [] then some v else none
  | none => none

/-! ### A canonical serializer for the JSON fragment

Used to state the embedded-JSON extraction property: a value is serialized
compactly (no whitespace, `"`/`\` escaped) and embedded into surrounding
prose. -/

def digitChar : Nat → Char
  | 0 => '0'
  | 1 => '1'
  | 2 => '2'
  | 3 => '3'
  | 4 => '4'
  | 5 => '5'
  | 6 => '6'
  | 7 => '7'
  | 8 => '8'
  | _ => '9'

def serNatChars (n : Nat) : List Char :=
  if n < 10 then [digitChar n]
  else serNatChars (n / 10) ++ [digitChar (n % 10)]
termination_by n
decreasing_by exact Nat.div_lt_self (by omega) (by omega)

def serIntChars (n : Int) : List Char :=
  if n < 0 then '-' :: serNatChars (-n).toNat else serNatChars n.toNat

def escChars : List Char → List Char
  | [] => []
  | c :: rest =>
    if c = '"' then '\\' :: '"' :: escChars rest
    else if c = '\\' then '\\' :: '\\' :: escChars rest
    else c :: escChars rest

mutual

def serVal : Json → List Char
  | Json.null => ['n', 'u', 'l', 'l']
  | Json.bool true => ['t', 'r', 'u', 'e']
  | Json.bool false => ['f', 'a', 'l', 's', 'e']
  | Json.num n => serIntChars n
  | Json.str s => '"' :: escChars s ++ ['"']
  | Json.arr xs => '[' :: serItems xs ++ [']']
  | Json.obj fs => '\x7b' :: serFields fs ++ ['\x7d']

def serItems : List Json → List Char
  | [] => []
  | [x] => serVal x
  | x :: y :: t => serVal x ++ ',' :: serItems (y :: t)

def serFields : List (List Char × Json) → List Char
  | [] => []
  | [(k, v)] => '"' :: escChars k ++ '"' :: ':' :: serVal v
  | (k, v) :: f :: t =>
    ('"' :: escChars k ++ '"' :: ':' :: serVal v) ++ ',' :: serFields (f :: t)

end

mutual

/-- Fuel sufficient for `parseVal` to consume the serialization of a value. -/
def needVal : Json → Nat
  | Json.null => 1
  | Json.bool _ => 1
  | Json.num _ => 1
  | Json.str _ => 1
  | Json.arr xs => 1 + needItems xs
  | Json.obj fs => 1 + needFields fs

def needItems : List Json → Nat
  | [] => 1
  | x :: t => 1 + max (needVal x) (needItems t)

def needFields : List (List Char × Json) → Nat
  | [] => 1
  | (_, v) :: t => 1 + max (needVal v) (needFields t)

end

/-- No bracket character occurs in the character list. -/
def noBrackets (s : List Char) : Prop :=
  ∀ c ∈ s, c ≠ '\x7b' ∧ c ≠ '\x7d' ∧ c ≠ '[' ∧ c ≠ ']'

instance : DecidablePred noBrackets := fun s =>
  List.decidableBAll _ s

/-- Every string (value or key) inside the JSON value is free of bracket
characters, so the depth-counting bracket matcher is not desynchronized by
string contents. -/
inductive BracketClean : Json → Prop where
  | null : BracketClean Json.null
  | bool (b : Bool) : BracketClean (Json.bool b)
  | num (n : Int) : BracketClean (Json.num n)
  | str (s : List Char) (h : noBrackets s) : BracketClean (Json.str s)
  | arr (xs : List Json) (h : ∀ x ∈ xs, BracketClean x) : BracketClean (Json.arr xs)
  | obj (fs : List (List Char × Json)) (hk : ∀ p ∈ fs, noBrackets p.1)
      (hv : ∀ p ∈ fs, BracketClean p.2) : BracketClean (Json.obj fs)

/-- What may legally follow a serialized value without changing how the
parser consumes it (nothing, or a separator/closer). -/
def goodFollow (rest : List Char) : Prop :=
  rest = [] ∨ ∃ c t, rest = c :: t ∧ (c = ',' ∨ c = ']' ∨ c = '\x7d')

/-- Bracket balance (opens minus closes) of the given kind. -/
def brkBal (bt : BracketType) (l : List Char) : Int :=
  (l.count (openChar bt) : Int) - (l.count (closeChar bt) : Int)

/-! ## StructuredObjectExtractor: `extract_json_objects` (agent_utils.py lines 111-149) -/

/-- The `while True` loop of `extract_json_objects`, fuelled.  A fuel of
`text.length + 1` is always sufficient (each iteration strictly advances the
cursor); this is proved below (`extractGo_eq_of_le`). -/
def extractGo (text : List Char) : Nat → Nat → List Json
  | 0, _ => []
  | fuel + 1, start_index =>
    match earliestBracket text start_index with
    | none => []
    | some (p, bracket_type) =>
      let end_index := find_matching_bracket text p bracket_type
      if end_index = -1 then []
      else
        match Json.parseChars (sliceList text p (end_index.toNat + 1)) with
        | some v => v :: extractGo text fuel (end_index.toNat + 1)
        | none => extractGo text fuel (end_index.toNat + 1)

def extract_json_objects (text : List Char) : List Json :=
  extractGo text (text.length + 1) 0

/-- Modelled from the spec: a variant of `extract_json_objects` whose cursor,
on parse failure, advances "by one position past the failed open-bracket"
(spec section 4.2) instead of past the matched closing bracket. -/
def extractSpecCursorGo (text : List Char) : Nat → Nat → List Json
  | 0, _ => []
  | fuel + 1, start_index =>
    match earliestBracket text start_index with
    | none => []
    | some (p, bracket_type) =>
      let end_index := find_matching_bracket text p bracket_type
      if end_index = -1 then []
      else
        match Json.parseChars (sliceList text p (end_index.toNat + 1)) with
        | some v => v :: extractSpecCursorGo text fuel (end_index.toNat + 1)
        | none => extractSpecCursorGo text fuel (p + 1)

def extract_json_objects_spec_cursor (text : List Char) : List Json :=
  extractSpecCursorGo text (text.length + 1) 0

/-! ## FencedBlockExtractor: `extract_code_from_gpt_response` (agent_utils.py lines 66-86) -/

/-- Model of `re.finditer` for a literal pattern: the start positions of the
non-overlapping left-to-right matches (the scan resumes past each match). -/
def finditerGo (pat : List Char) : Nat → List Char → Nat → List Nat
  | 0, _, _ => []
  | _ + 1, [], _ => []
  | fuel + 1, c :: rest, i =>
    if List.isPrefixOf pat (c :: rest) then
      i :: finditerGo pat fuel (List.drop (pat.length - 1) rest) (i + pat.length)
    else finditerGo pat fuel rest (i + 1)

def finditerLit (pat text : List Char) : List Nat :=
  finditerGo pat (text.length + 1) text 0

/-- The pairing loop of `extract_code_from_gpt_response`
(`for i in range(len(all_spans) - 1)`): consecutive fence positions `(i, i+1)`
are paired when fence `i` starts a `language`-tagged match and fence `i+1` does
not; the recorded span runs to the end of fence `i+1` (its start + 3). -/
def pairMatches : List Nat → List Nat → List (Nat × Nat)
  | a :: b :: rest, prefix_pos =>
    (if a ∈ prefix_pos ∧ ¬ b ∈ prefix_pos then [(a, b + 3)] else []) ++
      pairMatches (b :: rest) prefix_pos
  | _, _ => []

def backtick3 : List Char := ['\x60', '\x60', '\x60']

def extract_code_from_gpt_response (code_raw language : List Char) : List (List Char) :=
  let prefix_pos := finditerLit (backtick3 ++ language) code_raw
  let all_pos := finditerLit backtick3 code_raw
  let ms := pairMatches all_pos prefix_pos
  ms.map (fun ab =>
    let code := sliceList code_raw ab.1 ab.2
    (code.take (code.length - 3)).drop (3 + language.length))

/-- A fence position carrying some language tag: the fence marker is
immediately followed by a letter. -/
def fenceTagged (text : List Char) (p : Nat) : Bool :=
  match text.drop (p + 3) with
  | c :: _ => c.isAlpha
  | [] => false

/-- Modelled from the spec: the pairing rule claimed in section 4.3 — "pair
each tagged-open fence with the nearest following generic fence that is not
itself a tagged-open fence of the same or another language". -/
def claimedFencedExtract (code_raw language : List Char) : List (List Char) :=
  let all_pos := finditerLit backtick3 code_raw
  let lang_pos := all_pos.filter
    (fun p => List.isPrefixOf (backtick3 ++ language) (code_raw.drop p))
  lang_pos.filterMap (fun p =>
    match all_pos.find? (fun q => decide (p < q) && ! fenceTagged code_raw q) with
    | some q =>
      let code := sliceList code_raw p (q + 3)
      some ((code.take (code.length - 3)).drop (3 + language.length))
    | none => none)

/-! ## Table-name sanitizer (agent_sql_data_transform.py lines 163-170) -/

/-- The character class kept by `re.sub(r'[^a-zA-Z0-9_\.$]', '', ...)`. -/
def allowedTableChar (c : Char) : Bool :=
  ('a' ≤ c && c ≤ 'z') || ('A' ≤ c && c ≤ 'Z') || ('0' ≤ c && c ≤ '9') ||
    c = '_' || c = '.' || c = '$'

/-- `sanitize_table_name`: replace each space with `_`, each dash with `_`,
then delete every character outside `[a-zA-Z0-9_.$]` (the `re.sub` with an
empty replacement on the single-character negated class removes exactly the
characters outside the class). -/
def sanitize_table_name (table_name : String) : String :=
  let s1 := table_name.data.map (fun c => if c = ' ' then '_' else c)
  let s2 := s1.map (fun c => if c = '-' then '_' else c)
  String.mk (s2.filter (fun c => allowedTableChar c))

/-! ## CandidateAggregator / ExecutionSandbox:
`SQLDataTransformationAgent.process_gpt_sql_response`
(agent_sql_data_transform.py lines 189-268)

The DuckDB connection is an external collaborator; it is modelled as an oracle
mapping each issued statement text to an outcome — either a raised exception
(`PyExn`, carrying the exception class name `type(e).__name__` and the raw
error text) or the engine's answer.  The model client's response is either an
`Exception` object (transport failure, `isinstance(response, Exception)`) or a
list of choices, each with a role and message content. -/

structure Message where
  role : String
  content : String
deriving DecidableEq

structure Choice where
  role : String
  content : String
deriving DecidableEq

inductive Response where
  | exn : String → Response
  | ok : List Choice → Response

/-- The choices supplied by a response; an `Exception` response carries none. -/
def choicesOf : Response → List Choice
  | .exn _ => []
  | .ok cs => cs

structure PyExn where
  className : String
  text : String

abbrev Row := List (String × String)

/-- Oracle model of the DuckDB connection: outcome of each round trip the
pipeline performs (`conn.execute(create).., conn.commit(),
conn.execute(count).fetchone()[0], conn.execute(select).fetch_df()` followed by
the `to_json`/`json.loads` record conversion). -/
structure Conn where
  exec_create : String → Except PyExn Unit
  commit : Except PyExn Unit
  exec_count : String → Except PyExn Nat
  exec_fetch : String → Except PyExn (List Row)

inductive Content where
  | text : String → Content
  | table : List Row → String → Nat → Content
deriving DecidableEq

structure ResultCore where
  status : String
  code : String
  content : Content
deriving DecidableEq

/-- One candidate dict.  The transport-error result carries only `status` and
`content`; the per-choice results also carry `code`, `dialog`, `agent` and
`refined_goal`, hence the `Option` fields. -/
structure Candidate where
  status : String
  content : Content
  code : Option String
  dialog : Option (List Message)
  agent : Option String
  refined_goal : Option Json

def errorMessageFor (e : PyExn) : String :=
  "An error occurred during code execution. Error type: " ++ e.className

/-- The `try` block (lines 216-250): create the view, commit, count the rows,
materialize (`LIMIT 5000` only when the count exceeds 5000); any raised
exception is caught and summarized to its exception class name. -/
def runQueryBlock (conn : Conn) (table_name query_str : String) : ResultCore :=
  match conn.exec_create ("CREATE VIEW IF NOT EXISTS " ++ table_name ++ " AS " ++ query_str) with
  | .error e => ⟨"error", query_str, Content.text (errorMessageFor e)⟩
  | .ok _ =>
    match conn.commit with
    | .error e => ⟨"error", query_str, Content.text (errorMessageFor e)⟩
    | .ok _ =>
      match conn.exec_count ("SELECT COUNT(*) FROM " ++ table_name) with
      | .error e => ⟨"error", query_str, Content.text (errorMessageFor e)⟩
      | .ok row_count =>
        match (if row_count > 5000 then
                 conn.exec_fetch ("SELECT * FROM " ++ table_name ++ " LIMIT 5000")
               else
                 conn.exec_fetch ("SELECT * FROM " ++ table_name)) with
        | .error e => ⟨"error", query_str, Content.text (errorMessageFor e)⟩
        | .ok rows => ⟨"ok", query_str, Content.table rows table_name row_count⟩

def default_refined_goal : Json :=
  Json.obj [("chart_encodings".data, Json.obj []), ("instruction".data, Json.str []),
            ("reason".data, Json.str [])]

def no_code_message : String :=
  "No code block found in the response. The model is unable to generate code to complete the task."

/-- The loop body of `process_gpt_sql_response` for one choice: extract the
refined goal (first JSON object, or the default), extract the `sql` blocks,
execute the last block (or report that no code block was found), then attach
the dialog, agent name and refined goal. -/
def process_choice (conn : Conn) (table_name : String) (messages : List Message)
    (choice : Choice) : Candidate :=
  let body := choice.content ++ "\n"
  let json_blocks := extract_json_objects body.data
  let refined_goal :=
    match json_blocks with
    | g :: _ => g
    | [] => default_refined_goal
  let query_blocks := extract_code_from_gpt_response body.data "sql".data
  let core :=
    match query_blocks.getLast? with
    | some qb => runQueryBlock conn table_name (String.mk qb)
    | none => ⟨"error", "", Content.text no_code_message⟩
  ⟨core.status, core.content, some core.code,
    some (messages ++ [⟨choice.role, choice.content⟩]),
    some "SQLDataTransformationAgent", some refined_goal⟩

/-- The `for choice in response.choices` loop.  `conns i` is the oracle for the
round trips performed while handling choice `i` (the shared connection's state
evolves between choices), and `suffixes i` models the four random lowercase
letters drawn for the view name of choice `i`. -/
def processChoices (conns : Nat → Conn) (suffixes : Nat → String)
    (messages : List Message) : Nat → List Choice → List Candidate
  | _, [] => []
  | i, c :: rest =>
    process_choice (conns i) ("view_" ++ suffixes i) messages c ::
      processChoices conns suffixes messages (i + 1) rest

/-- `process_gpt_sql_response(response, messages)`. -/
def process_gpt_sql_response (conns : Nat → Conn) (suffixes : Nat → String)
    (response : Response) (messages : List Message) : List Candidate :=
  match response with
  | .exn body => [⟨"other error", Content.text body, none, none, none, none⟩]
  | .ok choices => processChoices conns suffixes messages 0 choices

/-! ## Auxiliary definitions used by the verification -/

/-- Balanced and prefix-nonnegative for both bracket kinds. -/
def balOK (l : List Char) : Prop :=
  (∀ bt, brkBal bt l = 0) ∧ ∀ bt n, 0 ≤ brkBal bt (l.take n)

/-- Bracket balance for an arbitrary open/close character pair. -/
def chBal (ob cb : Char) (l : List Char) : Int :=
  (l.count ob : Int) - l.count cb

/-- The statement of the roundtrip property for a single value. -/
def ParsesBack (v : Json) : Prop :=
  ∀ (fuel : Nat) (rest : List Char), needVal v ≤ fuel → goodFollow rest →
    parseVal fuel (serVal v ++ rest) = some (v, rest)

/-- A trivial connection oracle on which every statement succeeds. -/
def conn0 : Conn :=
  ⟨fun _ => Except.ok (), Except.ok (), fun _ => Except.ok 0, fun _ => Except.ok []⟩

/-- A connection oracle over a 6000-row view. -/
def conn6000 : Conn :=
  ⟨fun _ => Except.ok (), Except.ok (), fun _ => Except.ok 6000,
    fun s => if s = "SELECT * FROM view_abcd LIMIT 5000"
             then Except.ok (List.replicate 5000 ([] : Row))
             else Except.ok (List.replicate 6000 ([] : Row))⟩

/-- A connection oracle whose view creation raises an exception whose class
name is `ValueError` and whose raw error text is `Error`. -/
def connE : Conn :=
  ⟨fun _ => Except.error ⟨"ValueError", "Error"⟩, Except.ok (),
    fun _ => Except.ok 0, fun _ => Except.ok []⟩

/-! ## Helper lemmas about the bracket-matching loop -/

theorem fmbGoI_of_stack_ne (ob cb : Char) :
    ∀ (rem : List Char) (idx : Nat) (stack : List Char), stack ≠ [] →
      (fmbGoI ob cb rem idx stack).2 = false ∧
        (fmbGoI ob cb rem idx stack).1 = fmbGo ob cb rem idx stack := by
  intro rem
  induction rem with
  | nil => intro idx stack _; exact ⟨rfl, rfl⟩
  | cons c rest ih =>
    intro idx stack h
    by_cases h1 : c = ob
    · simp only [fmbGoI, fmbGo, if_pos h1]
      exact ih (idx + 1) (c :: stack) (by simp)
    · by_cases h2 : c = cb
      · simp only [fmbGoI, fmbGo, if_neg h1, if_pos h2]
        cases stack with
        | nil => exact absurd rfl h
        | cons s stack' =>
          by_cases h3 : stack' = []
          · simp [h3]
          · simp only [if_neg h3]
            exact ih (idx + 1) stack' h3
      · simp only [fmbGoI, fmbGo, if_neg h1, if_neg h2]
        exact ih (idx + 1) stack h

theorem fmbGo_ret (ob cb : Char) :
    ∀ (rem : List Char) (idx : Nat) (stack : List Char) (j : Nat),
      fmbGo ob cb rem idx stack = (j : Int) →
        idx ≤ j ∧ j < idx + rem.length ∧ rem.get? (j - idx) = some cb := by
  intro rem
  induction rem with
  | nil =>
    intro idx stack j h
    simp only [fmbGo] at h
    omega
  | cons c rest ih =>
    intro idx stack j h
    by_cases h1 : c = ob
    · simp only [fmbGo, if_pos h1] at h
      obtain ⟨ha, hb, hc⟩ := ih (idx + 1) (c :: stack) j h
      refine ⟨by omega, by simp; omega, ?_⟩
      have : j - idx = (j - (idx + 1)) + 1 := by omega
      rw [this]
      simpa using hc
    · by_cases h2 : c = cb
      · simp only [fmbGo, if_neg h1, if_pos h2] at h
        cases stack with
        | nil => simp at h
        | cons s stack' =>
          by_cases h3 : stack' = []
          · simp only [if_pos h3] at h
            have : idx = j := by exact_mod_cast h
            subst this
            refine ⟨le_refl _, by simp, ?_⟩
            simp [h2]
          · simp only [if_neg h3] at h
            obtain ⟨ha, hb, hc⟩ := ih (idx + 1) stack' j h
            refine ⟨by omega, by simp; omega, ?_⟩
            have : j - idx = (j - (idx + 1)) + 1 := by omega
            rw [this]
            simpa using hc
      · simp only [fmbGo, if_neg h1, if_neg h2] at h
        obtain ⟨ha, hb, hc⟩ := ih (idx + 1) stack j h
        refine ⟨by omega, by simp; omega, ?_⟩
        have : j - idx = (j - (idx + 1)) + 1 := by omega
        rw [this]
        simpa using hc

theorem fmbGo_ge (ob cb : Char) :
    ∀ (rem : List Char) (idx : Nat) (stack : List Char),
      fmbGo ob cb rem idx stack = -1 ∨ (idx : Int) ≤ fmbGo ob cb rem idx stack := by
  intro rem
  induction rem with
  | nil => intro idx stack; exact Or.inl rfl
  | cons c rest ih =>
    intro idx stack
    by_cases h1 : c = ob
    · simp only [fmbGo, if_pos h1]
      rcases ih (idx + 1) (c :: stack) with h | h
      · exact Or.inl h
      · exact Or.inr (le_trans (by omega) h)
    · by_cases h2 : c = cb
      · simp only [fmbGo, if_neg h1, if_pos h2]
        cases stack with
        | nil => exact Or.inl rfl
        | cons s stack' =>
          by_cases h3 : stack' = []
          · simp only [if_pos h3]
            exact Or.inr (le_refl _)
          · simp only [if_neg h3]
            rcases ih (idx + 1) stack' with h | h
            · exact Or.inl h
            · exact Or.inr (le_trans (by omega) h)
      · simp only [fmbGo, if_neg h1, if_neg h2]
        rcases ih (idx + 1) stack with h | h
        · exact Or.inl h
        · exact Or.inr (le_trans (by omega) h)

theorem findFromGo_ge (c : Char) :
    ∀ (rem : List Char) (i : Nat),
      findFromGo c rem i = -1 ∨ (i : Int) ≤ findFromGo c rem i := by
  intro rem
  induction rem with
  | nil => intro i; exact Or.inl rfl
  | cons x rest ih =>
    intro i
    by_cases h : x = c
    · simp only [findFromGo, if_pos h]
      exact Or.inr (le_refl _)
    · simp only [findFromGo, if_neg h]
      rcases ih (i + 1) with h' | h'
      · exact Or.inl h'
      · exact Or.inr (le_trans (by omega) h')

theorem str_find_ge (text : List Char) (c : Char) (s : Nat) :
    str_find text c s = -1 ∨ (s : Int) ≤ str_find text c s :=
  findFromGo_ge c (text.drop s) s

theorem earliestBracket_ge {text : List Char} {s p : Nat} {bt : BracketType}
    (h : earliestBracket text s = some (p, bt)) : s ≤ p := by
  have hob := str_find_ge text '\x7b' s
  have has := str_find_ge text '[' s
  simp only [earliestBracket] at h
  by_cases h1 : str_find text '\x7b' s = -1 ∧ str_find text '[' s = -1
  · rw [if_pos h1] at h
    exact absurd h (by simp)
  · rw [if_neg h1] at h
    by_cases h2 : str_find text '\x7b' s = -1
    · rw [if_pos h2] at h
      simp only [Option.some.injEq, Prod.mk.injEq] at h
      have h3 : ¬ str_find text '[' s = -1 := fun hc => h1 ⟨h2, hc⟩
      rcases has with h' | h'
      · exact absurd h' h3
      · omega
    · rw [if_neg h2] at h
      by_cases h3 : str_find text '[' s = -1
      · rw [if_pos h3] at h
        simp only [Option.some.injEq, Prod.mk.injEq] at h
        rcases hob with h' | h'
        · exact absurd h' h2
        · omega
      · rw [if_neg h3] at h
        simp only [Option.some.injEq, Prod.mk.injEq] at h
        rcases hob with h' | h'
        · exact absurd h' h2
        · rcases has with h'' | h''
          · exact absurd h'' h3
          · have hmin : (s : Int) ≤ min (str_find text '\x7b' s) (str_find text '[' s) :=
              le_min h' h''
            omega

theorem earliestBracket_none_of_le {text : List Char} {s : Nat} (h : text.length ≤ s) :
    earliestBracket text s = none := by
  have hd : text.drop s = [] := List.drop_eq_nil_of_le h
  simp [earliestBracket, str_find, hd, findFromGo]

theorem extract_step_progress {text : List Char} {s p : Nat} {bt : BracketType}
    (hEB : earliestBracket text s = some (p, bt))
    (hne : find_matching_bracket text p bt ≠ -1) :
    s < (find_matching_bracket text p bt).toNat + 1 := by
  have h1 : s ≤ p := earliestBracket_ge hEB
  rcases fmbGo_ge (openChar bt) (closeChar bt) (text.drop p) p [] with h | h
  · exact absurd h hne
  · have h' : (p : Int) ≤ find_matching_bracket text p bt := h
    omega

theorem extractGo_succ (text : List Char) (fuel s : Nat) :
    extractGo text (fuel + 1) s =
      match earliestBracket text s with
      | none => []
      | some (p, bt) =>
        let e := find_matching_bracket text p bt
        if e = -1 then []
        else
          match Json.parseChars (sliceList text p (e.toNat + 1)) with
          | some v => v :: extractGo text fuel (e.toNat + 1)
          | none => extractGo text fuel (e.toNat + 1) := rfl

theorem extractGo_eq_of_le (text : List Char) :
    ∀ (fuel fuel' s : Nat), text.length + 1 - s ≤ fuel → text.length + 1 - s ≤ fuel' →
      extractGo text fuel s = extractGo text fuel' s := by
  intro fuel
  induction fuel with
  | zero =>
    intro fuel' s h _
    have hEB := @earliestBracket_none_of_le text s (by omega)
    cases fuel' with
    | zero => rfl
    | succ f' => rw [extractGo_succ, hEB]; rfl
  | succ f ih =>
    intro fuel' s h h'
    cases fuel' with
    | zero =>
      have hEB := @earliestBracket_none_of_le text s (by omega)
      rw [extractGo_succ, hEB]; rfl
    | succ f' =>
      rw [extractGo_succ, extractGo_succ]
      cases hEB : earliestBracket text s with
      | none => rfl
      | some pb =>
        obtain ⟨p, bt⟩ := pb
        by_cases hne : find_matching_bracket text p bt = -1
        · simp only [hne]
          rfl
        · have hpr : s < (find_matching_bracket text p bt).toNat + 1 :=
            extract_step_progress hEB hne
          have hrec := ih f' ((find_matching_bracket text p bt).toNat + 1) (by omega) (by omega)
          simp only [if_neg hne]
          cases Json.parseChars (sliceList text p ((find_matching_bracket text p bt).toNat + 1)) with
          | none => exact hrec
          | some v => rw [hrec]

/-! ## Claim theorems -/

/-- C7: for every text (in particular one containing an open bracket with no
matching close), the scan loop of `extract_json_objects` always makes
progress: `text.length + 1` iterations suffice (any fuel at least that large
computes the function's value), and as soon as the earliest unconsumed open
bracket has no matching close the scan stops, returning only the objects
already extracted from spans beginning before it. -/
theorem extract_json_objects_terminates :
    (∀ (text : List Char) (fuel : Nat), text.length + 1 ≤ fuel →
      extractGo text fuel 0 = extract_json_objects text) ∧
    (∀ (text : List Char) (s p : Nat) (bt : BracketType) (fuel : Nat),
      earliestBracket text s = some (p, bt) → find_matching_bracket text p bt = -1 →
      extractGo text fuel s = []) := by
  constructor
  · intro text fuel h
    exact extractGo_eq_of_le text fuel (text.length + 1) 0 (by omega) (by omega)
  · intro text s p bt fuel hEB hfmb
    cases fuel with
    | zero => rfl
    | succ f =>
      rw [extractGo_succ, hEB]
      simp [hfmb]

theorem extract_json_objects_terminates_witness :
    extractGo "[1] \x7b2".data 8 0 = extract_json_objects "[1] \x7b2".data ∧
    extractGo "[1] \x7b2".data 3 4 = [] :=
  ⟨extract_json_objects_terminates.1 "[1] \x7b2".data 8 (by decide),
   extract_json_objects_terminates.2 "[1] \x7b2".data 4 4 BracketType.curly 3
     (by decide) (by decide)⟩

/-- C3 counterexample: the claim says that on parse failure the cursor is
advanced by exactly one position past the failed open bracket; the code
advances it past the matched closing bracket instead.  On
`"\x7b [1,2] x\x7d"` the matched curly span fails to parse and the code skips
the whole span (extracting nothing), while the claimed cursor rule would
rescan from inside it and extract `[1,2]`. -/
theorem extract_cursor_counterexample :
    extract_json_objects "\x7b [1,2] x\x7d".data = [] ∧
    extract_json_objects_spec_cursor "\x7b [1,2] x\x7d".data =
      [Json.arr [Json.num 1, Json.num 2]] ∧
    ([] : List Json) ≠ [Json.arr [Json.num 1, Json.num 2]] :=
  ⟨rfl, rfl, by simp⟩

/-- C3 amended: whenever a bracket-matched span fails to parse as JSON, the
scan cursor is advanced to one past the matched *closing* bracket
(`end_index + 1`, exactly as on success), and scanning continues from there;
progress is still guaranteed since the close lies at or after the open. -/
theorem extract_cursor_amended :
    ∀ (text : List Char) (s p : Nat) (bt : BracketType) (fuel : Nat),
      earliestBracket text s = some (p, bt) →
      find_matching_bracket text p bt ≠ -1 →
      Json.parseChars
        (sliceList text p ((find_matching_bracket text p bt).toNat + 1)) = none →
      extractGo text (fuel + 1) s =
        extractGo text fuel ((find_matching_bracket text p bt).toNat + 1) ∧
      s ≤ p ∧ p ≤ (find_matching_bracket text p bt).toNat := by
  intro text s p bt fuel hEB hne hparse
  refine ⟨?_, earliestBracket_ge hEB, ?_⟩
  · rw [extractGo_succ, hEB]
    simp only [if_neg hne, hparse]
  · rcases fmbGo_ge (openChar bt) (closeChar bt) (text.drop p) p [] with h | h
    · exact absurd h hne
    · have h' : (p : Int) ≤ find_matching_bracket text p bt := h
      omega

theorem extract_cursor_amended_witness :
    extractGo "\x7ba\x7d".data 6 0 = extractGo "\x7ba\x7d".data 5 3 ∧
    (0 : Nat) ≤ 0 ∧ (0 : Nat) ≤ 2 := by
  have h := extract_cursor_amended "\x7ba\x7d".data 0 0 BracketType.curly 5
    (by decide) (by decide) rfl
  exact ⟨h.1, h.2.1, h.2.2⟩

/-- C10: whenever `text[start_index]` is the opening bracket of the requested
kind, the early `return -1` branch of `find_matching_bracket` (a closing
bracket seen with an empty stack) is unreachable: the instrumented loop never
takes it, the function's value is unchanged by removing it, and any
non-negative result is the index of a closing bracket of the requested kind
(`-1` can only arise by falling off the end of the text). -/
theorem find_matching_bracket_early_return_unreachable :
    ∀ (text : List Char) (start_index : Nat) (bracket_type : BracketType)
      (h : start_index < text.length),
      text.get ⟨start_index, h⟩ = openChar bracket_type →
      (find_matching_bracketI text start_index bracket_type).2 = false ∧
      (find_matching_bracketI text start_index bracket_type).1 =
        find_matching_bracket text start_index bracket_type ∧
      (∀ j : Nat, find_matching_bracket text start_index bracket_type = (j : Int) →
        (text.drop start_index).get? (j - start_index) = some (closeChar bracket_type)) := by
  intro text start_index bt h hopen
  have hdrop : text.drop start_index = text.get ⟨start_index, h⟩ :: text.drop (start_index + 1) :=
    List.drop_eq_get_cons h
  refine ⟨?_, ?_, ?_⟩
  · unfold find_matching_bracketI
    rw [hdrop, hopen]
    simp only [fmbGoI, if_pos rfl]
    exact (fmbGoI_of_stack_ne (openChar bt) (closeChar bt) (text.drop (start_index + 1))
      (start_index + 1) [openChar bt] (by simp)).1
  · unfold find_matching_bracketI find_matching_bracket
    rw [hdrop, hopen]
    simp only [fmbGoI, fmbGo, if_pos rfl]
    exact (fmbGoI_of_stack_ne (openChar bt) (closeChar bt) (text.drop (start_index + 1))
      (start_index + 1) [openChar bt] (by simp)).2
  · intro j hj
    exact (fmbGo_ret (openChar bt) (closeChar bt) (text.drop start_index) start_index [] j hj).2.2

theorem find_matching_bracket_early_return_unreachable_witness :
    (find_matching_bracketI "\x7ba\x7d".data 0 BracketType.curly).2 = false ∧
    (find_matching_bracketI "\x7ba\x7d".data 0 BracketType.curly).1 =
      find_matching_bracket "\x7ba\x7d".data 0 BracketType.curly := by
  have h := find_matching_bracket_early_return_unreachable "\x7ba\x7d".data 0
    BracketType.curly (by decide) (by decide)
  exact ⟨h.1, h.2.1⟩

/-! ## Sanitizer lemmas -/

theorem count_filter_allowed (l : List Char) :
    (l.filter (fun c => allowedTableChar c)).count '_' = l.count '_' := by
  induction l with
  | nil => rfl
  | cons c l ih =>
    by_cases h : allowedTableChar c = true
    · rw [List.filter_cons_of_pos h, List.count_cons, List.count_cons, ih]
    · rw [List.filter_cons_of_neg h, List.count_cons, ih]
      have hne : ¬ c = '_' := by
        rintro rfl
        exact h rfl
      simp [hne]

theorem count_repl (l : List Char) :
    ((l.map (fun c => if c = ' ' then '_' else c)).map
        (fun c => if c = '-' then '_' else c)).count '_' =
      l.count '_' + l.count ' ' + l.count '-' := by
  induction l with
  | nil => rfl
  | cons c l ih =>
    rw [List.map_cons, List.map_cons, List.count_cons, List.count_cons, List.count_cons,
      List.count_cons, ih]
    by_cases h1 : c = ' '
    · subst h1
      simp
      omega
    · by_cases h2 : c = '-'
      · subst h2
        simp
        omega
      · by_cases h3 : c = '_'
        · subst h3
          simp
          omega
        · rw [if_neg h1, if_neg h2]
          simp [h1, h2, h3]

/-- C9: the table-name sanitizer keeps only characters in `[A-Za-z0-9_.$]`
(in particular its result has no whitespace and no dash), and every space and
dash of the input becomes an underscore: the number of underscores in the
result is exactly the number of underscores, spaces and dashes in the input. -/
theorem sanitize_table_name_invariant :
    ∀ (s : String),
      (∀ c ∈ (sanitize_table_name s).data, allowedTableChar c = true) ∧
      (∀ c ∈ (sanitize_table_name s).data,
        c ≠ ' ' ∧ c ≠ '\t' ∧ c ≠ '\n' ∧ c ≠ '\r' ∧ c ≠ '-') ∧
      (sanitize_table_name s).data.count '_' =
        s.data.count '_' + s.data.count ' ' + s.data.count '-' := by
  intro s
  have hdata : (sanitize_table_name s).data =
      ((s.data.map (fun c => if c = ' ' then '_' else c)).map
        (fun c => if c = '-' then '_' else c)).filter (fun c => allowedTableChar c) := rfl
  refine ⟨?_, ?_, ?_⟩
  · intro c hc
    rw [hdata] at hc
    exact List.of_mem_filter hc
  · intro c hc
    rw [hdata] at hc
    have h := List.of_mem_filter hc
    refine ⟨?_, ?_, ?_, ?_, ?_⟩ <;> rintro rfl <;> exact absurd h (by decide)
  · rw [hdata, count_filter_allowed, count_repl]

theorem sanitize_table_name_invariant_witness :
    allowedTableChar '_' = true ∧
    (sanitize_table_name "my table-1!").data.count '_' =
      "my table-1!".data.count '_' + "my table-1!".data.count ' ' +
        "my table-1!".data.count '-' :=
  ⟨(sanitize_table_name_invariant "my table-1!").1 '_' (by decide),
   (sanitize_table_name_invariant "my table-1!").2.2⟩

/-! ## Fenced-block pairing -/

/-- C4 counterexample: the claim pairs a tagged-open fence with the nearest
following fence that is not a tagged-open fence of the same *or another*
language.  The code only checks the immediately following generic fence
against the positions tagged with the *requested* language, so a fence tagged
with another language (here `json`) does terminate the block. -/
theorem fenced_pairing_counterexample :
    extract_code_from_gpt_response "```sql A ```json B ```\n".data "sql".data =
      [" A ".data] ∧
    claimedFencedExtract "```sql A ```json B ```\n".data "sql".data =
      [" A ```json B ".data] ∧
    [" A ".data] ≠ [" A ```json B ".data] :=
  ⟨rfl, rfl, by decide⟩

/-- C4 amended: the extractor pairs consecutive fence occurrences `(i, i+1)`;
an interval is extracted exactly when its opening fence carries the requested
language tag and the immediately following fence does not carry the *requested*
tag (fences tagged with other languages do close a block).  Consequently, for a
response with one `json`-tagged block followed by one `sql`-tagged block,
`extract(text, "sql")` returns exactly the SQL block's inner text. -/
theorem fenced_pairing_amended :
    (∀ (spans prefix_pos : List Nat) (a b : Nat),
      (a, b) ∈ pairMatches spans prefix_pos ↔
        ∃ i c, spans.get? i = some a ∧ spans.get? (i + 1) = some c ∧ b = c + 3 ∧
          a ∈ prefix_pos ∧ c ∉ prefix_pos) ∧
    extract_code_from_gpt_response
        "```json\n\x7b\"a\": 1\x7d\n```\n```sql\nSELECT 1\n```\n".data "sql".data =
      ["\nSELECT 1\n".data] := by
  constructor
  · intro spans
    induction spans with
    | nil =>
      intro prefix_pos a b
      constructor
      · intro h
        exact absurd h (by simp [pairMatches])
      · rintro ⟨i, c, h1, _⟩
        simp at h1
    | cons x rest ih =>
      cases rest with
      | nil =>
        intro prefix_pos a b
        constructor
        · intro h
          exact absurd h (by simp [pairMatches])
        · rintro ⟨i, c, h1, h2, _⟩
          cases i with
          | zero => simp at h2
          | succ k => simp at h1
      | cons y rest' =>
        intro prefix_pos a b
        constructor
        · intro hmem
          simp only [pairMatches, List.mem_append] at hmem
          rcases hmem with hm | hm
          · by_cases hc : x ∈ prefix_pos ∧ ¬ y ∈ prefix_pos
            · rw [if_pos hc] at hm
              simp only [List.mem_singleton, Prod.mk.injEq] at hm
              obtain ⟨ha, hb⟩ := hm
              subst ha
              subst hb
              exact ⟨0, y, rfl, rfl, rfl, hc.1, hc.2⟩
            · rw [if_neg hc] at hm
              simp at hm
          · obtain ⟨i, c, h1, h2, h3, h4, h5⟩ := (ih prefix_pos a b).mp hm
            exact ⟨i + 1, c, by simpa using h1, by simpa using h2, h3, h4, h5⟩
        · rintro ⟨i, c, h1, h2, h3, h4, h5⟩
          simp only [pairMatches, List.mem_append]
          cases i with
          | zero =>
            simp only [List.get?] at h1 h2
            injection h1 with h1
            injection h2 with h2
            subst h1
            subst h2
            subst h3
            left
            rw [if_pos ⟨h4, h5⟩]
            simp
          | succ k =>
            right
            exact (ih prefix_pos a b).mpr ⟨k, c, by simpa using h1, by simpa using h2, h3, h4, h5⟩
  · rfl

theorem fenced_pairing_amended_witness :
    (0, 12) ∈ pairMatches [0, 9, 19] [0] :=
  (fenced_pairing_amended.1 [0, 9, 19] [0] 0 12).mpr
    ⟨0, 9, rfl, rfl, rfl, by decide, by decide⟩

/-! ## Execution sandbox lemmas -/

theorem runQueryBlock_code (conn : Conn) (table_name query_str : String) :
    (runQueryBlock conn table_name query_str).code = query_str := by
  unfold runQueryBlock
  repeat' split
  all_goals rfl

theorem runQueryBlock_status (conn : Conn) (table_name query_str : String) :
    (runQueryBlock conn table_name query_str).status = "ok" ∨
      (runQueryBlock conn table_name query_str).status = "error" := by
  unfold runQueryBlock
  repeat' split
  all_goals first
  | exact Or.inl rfl
  | exact Or.inr rfl

/-- C8: when the fenced-block extractor returns two or more `sql`-tagged
blocks for a choice, the pipeline records and executes the *last* extracted
block (`query_blocks[-1]`): the candidate's code is that block, and its status
and content are those of executing that block. -/
theorem last_block_authoritative :
    ∀ (conn : Conn) (table_name : String) (messages : List Message) (choice : Choice)
      (blocks : List (List Char)) (b : List Char),
      extract_code_from_gpt_response (choice.content ++ "\n").data "sql".data = blocks →
      2 ≤ blocks.length →
      blocks.getLast? = some b →
      (process_choice conn table_name messages choice).code = some (String.mk b) ∧
      (process_choice conn table_name messages choice).status =
        (runQueryBlock conn table_name (String.mk b)).status ∧
      (process_choice conn table_name messages choice).content =
        (runQueryBlock conn table_name (String.mk b)).content := by
  intro conn table_name messages choice blocks b hext hlen hlast
  simp only [process_choice, hext, hlast]
  refine ⟨?_, ?_, ?_⟩
  · rw [runQueryBlock_code]
  · first | rfl | trivial
  · first | rfl | trivial

theorem last_block_authoritative_witness :
    (process_choice conn0 "view_abcd" []
        ⟨"assistant", "```sql\nA\n```\n```sql\nB\n```"⟩).code =
      some (String.mk "\nB\n".data) := by
  have h := last_block_authoritative conn0 "view_abcd" []
    ⟨"assistant", "```sql\nA\n```\n```sql\nB\n```"⟩
    ["\nA\n".data, "\nB\n".data] "\nB\n".data rfl (by decide) rfl
  exact h.1

/-! ## Row cap (C5) -/

/-- C5: when view creation succeeds and the engine behaves consistently
(counting reports the view's true row count, fetching with `LIMIT 5000`
returns the first 5000 rows, fetching without a limit returns all rows), the
result is a success whose `row_count` is the true (pre-cap) count while the
materialized rows are capped at 5000: with more than 5000 rows exactly 5000
are materialized, otherwise all of them. -/
theorem execution_row_cap :
    ∀ (conn : Conn) (table_name query_str : String) (rows : List Row),
      conn.exec_create ("CREATE VIEW IF NOT EXISTS " ++ table_name ++ " AS " ++ query_str) =
        Except.ok () →
      conn.commit = Except.ok () →
      conn.exec_count ("SELECT COUNT(*) FROM " ++ table_name) = Except.ok rows.length →
      conn.exec_fetch ("SELECT * FROM " ++ table_name ++ " LIMIT 5000") =
        Except.ok (rows.take 5000) →
      conn.exec_fetch ("SELECT * FROM " ++ table_name) = Except.ok rows →
      runQueryBlock conn table_name query_str =
        ⟨"ok", query_str,
          Content.table (if rows.length > 5000 then rows.take 5000 else rows)
            table_name rows.length⟩ ∧
      (rows.length > 5000 → (rows.take 5000).length = 5000) ∧
      (rows.length ≤ 5000 →
        (if rows.length > 5000 then rows.take 5000 else rows) = rows) := by
  intro conn table_name query_str rows hcreate hcommit hcount hfetchL hfetchA
  refine ⟨?_, ?_, ?_⟩
  · by_cases h : rows.length > 5000
    · simp only [runQueryBlock, hcreate, hcommit, hcount, if_pos h, hfetchL]
    · simp only [runQueryBlock, hcreate, hcommit, hcount, if_neg h, hfetchA]
  · intro h
    rw [List.length_take]
    omega
  · intro h
    rw [if_neg (by omega)]

theorem execution_row_cap_witness :
    runQueryBlock conn6000 "view_abcd" "SELECT 1" =
      ⟨"ok", "SELECT 1",
        Content.table (List.replicate 5000 ([] : Row)) "view_abcd" 6000⟩ ∧
    (List.replicate 5000 ([] : Row)).length = 5000 := by
  have hlen : (List.replicate 6000 ([] : Row)).length = 6000 := by
    simp only [List.length_replicate]
  have htake : (List.replicate 6000 ([] : Row)).take 5000 = List.replicate 5000 ([] : Row) := by
    rw [List.take_replicate]
    norm_num
  have hc : conn6000.exec_count "SELECT COUNT(*) FROM view_abcd" =
      Except.ok (List.replicate 6000 ([] : Row)).length := by
    rw [hlen]
    rfl
  have hl : conn6000.exec_fetch "SELECT * FROM view_abcd LIMIT 5000" =
      Except.ok ((List.replicate 6000 ([] : Row)).take 5000) := by
    rw [htake]
    rfl
  have ha : conn6000.exec_fetch "SELECT * FROM view_abcd" =
      Except.ok (List.replicate 6000 ([] : Row)) := rfl
  have h := execution_row_cap conn6000 "view_abcd" "SELECT 1"
    (List.replicate 6000 ([] : Row)) rfl rfl hc hl ha
  have hif : (if (List.replicate 6000 ([] : Row)).length > 5000
      then (List.replicate 6000 ([] : Row)).take 5000
      else List.replicate 6000 ([] : Row)) = List.replicate 5000 ([] : Row) := by
    rw [if_pos (by rw [hlen]; norm_num)]
    exact htake
  refine ⟨?_, ?_⟩
  · rw [h.1, hif, hlen]
  · simp only [List.length_replicate]

/-! ## Error summarization (C6) -/

/-- C6 counterexample: the claim says the raw engine error text *never*
appears in the produced message.  For an exception with class `ValueError` and
raw text `"Error"`, the produced message contains the raw text verbatim as a
substring (the message is the fixed template around the class name, and both
the template and the class name can coincide with the raw text). -/
theorem error_text_counterexample :
    connE.exec_create "CREATE VIEW IF NOT EXISTS view_ab AS SELECT 1" =
      Except.error ⟨"ValueError", "Error"⟩ ∧
    (⟨"ValueError", "Error"⟩ : PyExn).text = "Error" ∧
    runQueryBlock connE "view_ab" "SELECT 1" =
      ⟨"error", "SELECT 1",
        Content.text
          ("An error occurred during code execution. " ++ "Error" ++ " type: ValueError")⟩ :=
  ⟨rfl, rfl, by decide⟩

/-- C6 amended: for every store error raised during view creation, commit, row
counting or materialization, the candidate has `error` status and a message
computed from the fixed template and *only* the exception's class name — the
raw error text is never used, so any two exceptions of the same class yield
identical messages (though the raw text may coincidentally occur inside the
fixed wording or the class name, as the counterexample shows). -/
theorem error_summarized_to_class_name :
    ∀ (conn : Conn) (table_name query_str : String) (e : PyExn),
      (conn.exec_create ("CREATE VIEW IF NOT EXISTS " ++ table_name ++ " AS " ++ query_str) =
          Except.error e
        ∨ (conn.exec_create ("CREATE VIEW IF NOT EXISTS " ++ table_name ++ " AS " ++ query_str) =
             Except.ok () ∧ conn.commit = Except.error e)
        ∨ (conn.exec_create ("CREATE VIEW IF NOT EXISTS " ++ table_name ++ " AS " ++ query_str) =
             Except.ok () ∧ conn.commit = Except.ok () ∧
           conn.exec_count ("SELECT COUNT(*) FROM " ++ table_name) = Except.error e)
        ∨ (∃ n : Nat,
            conn.exec_create ("CREATE VIEW IF NOT EXISTS " ++ table_name ++ " AS " ++ query_str) =
              Except.ok () ∧ conn.commit = Except.ok () ∧
            conn.exec_count ("SELECT COUNT(*) FROM " ++ table_name) = Except.ok n ∧
            (if n > 5000 then conn.exec_fetch ("SELECT * FROM " ++ table_name ++ " LIMIT 5000")
             else conn.exec_fetch ("SELECT * FROM " ++ table_name)) = Except.error e)) →
      runQueryBlock conn table_name query_str =
        ⟨"error", query_str,
          Content.text ("An error occurred during code execution. Error type: " ++ e.className)⟩ ∧
      (∀ e₂ : PyExn, e₂.className = e.className → errorMessageFor e₂ = errorMessageFor e) := by
  intro conn table_name query_str e hcase
  constructor
  · rcases hcase with h | ⟨h1, h⟩ | ⟨h1, h2, h⟩ | ⟨n, h1, h2, h3, h⟩
    · simp only [runQueryBlock, errorMessageFor, h]
    · simp only [runQueryBlock, errorMessageFor, h1, h]
    · simp only [runQueryBlock, errorMessageFor, h1, h2, h]
    · simp only [runQueryBlock, errorMessageFor, h1, h2, h3, h]
  · intro e₂ he
    unfold errorMessageFor
    rw [he]

theorem error_summarized_to_class_name_witness :
    runQueryBlock connE "view_ab" "SELECT 1" =
      ⟨"error", "SELECT 1",
        Content.text ("An error occurred during code execution. Error type: " ++ "ValueError")⟩ :=
  (error_summarized_to_class_name connE "view_ab" "SELECT 1" ⟨"ValueError", "Error"⟩
    (Or.inl rfl)).1

/-! ## Candidate aggregation (C1) -/

theorem processChoices_length (conns : Nat → Conn) (suffixes : Nat → String)
    (messages : List Message) :
    ∀ (i : Nat) (choices : List Choice),
      (processChoices conns suffixes messages i choices).length = choices.length := by
  intro i choices
  induction choices generalizing i with
  | nil => rfl
  | cons c rest ih =>
    simp only [processChoices, List.length_cons, ih]

theorem processChoices_get? (conns : Nat → Conn) (suffixes : Nat → String)
    (messages : List Message) :
    ∀ (choices : List Choice) (i k : Nat),
      (processChoices conns suffixes messages i choices).get? k =
        (choices.get? k).map
          (fun c => process_choice (conns (i + k)) ("view_" ++ suffixes (i + k)) messages c) := by
  intro choices
  induction choices with
  | nil => intro i k; cases k <;> rfl
  | cons c rest ih =>
    intro i k
    cases k with
    | zero => simp [processChoices]
    | succ k' =>
      simp only [processChoices, List.get?]
      rw [ih (i + 1) k']
      have : i + 1 + k' = i + (k' + 1) := by omega
      rw [this]

theorem processChoices_status (conns : Nat → Conn) (suffixes : Nat → String)
    (messages : List Message) :
    ∀ (choices : List Choice) (i : Nat) (cand : Candidate),
      cand ∈ processChoices conns suffixes messages i choices →
      (cand.status = "ok" ∨ cand.status = "error") ∧
      cand.agent = some "SQLDataTransformationAgent" := by
  intro choices
  induction choices with
  | nil => intro i cand h; exact absurd h (by simp [processChoices])
  | cons c rest ih =>
    intro i cand h
    simp only [processChoices, List.mem_cons] at h
    rcases h with h | h
    · subst h
      constructor
      · show (process_choice (conns i) ("view_" ++ suffixes i) messages c).status = _ ∨ _
        simp only [process_choice]
        cases hq : (extract_code_from_gpt_response (c.content ++ "\n").data "sql".data).getLast? with
        | none => exact Or.inr rfl
        | some qb => exact runQueryBlock_status (conns i) ("view_" ++ suffixes i) (String.mk qb)
      · rfl
    · exact ih (i + 1) cand h

/-- C1 counterexample: the claim says `process` returns exactly one candidate
per choice in the response, with a transport-level error among 3 choices
yielding 3 candidates.  In the code the transport-error check is response
level: an `Exception` response carries no choices at all and yields exactly
one `other error` candidate, not one candidate per choice. -/
theorem aggregator_counterexample :
    (process_gpt_sql_response (fun _ => conn0) (fun _ => "abcd")
        (Response.exn "transport failure") []).length = 1 ∧
    (choicesOf (Response.exn "transport failure")).length = 0 ∧
    (1 : Nat) ≠ 0 :=
  ⟨rfl, rfl, by decide⟩

/-- C1 amended: the transport-error check is response-level: an `Exception`
response yields exactly one candidate, tagged `other error` and carrying the
error body, bypassing extraction entirely.  A successful response yields
exactly one candidate per choice, in the choices' original order; each such
candidate's status is `ok` or `error` (every stage failure degrades to an
`error`-status candidate — the embedding is a total function, so no exception
propagates), and each carries the dialog `messages ++ [choice's message]`. -/
theorem aggregator_one_candidate_per_choice :
    ∀ (conns : Nat → Conn) (suffixes : Nat → String) (messages : List Message),
      (∀ body, process_gpt_sql_response conns suffixes (Response.exn body) messages =
        [⟨"other error", Content.text body, none, none, none, none⟩]) ∧
      (∀ choices : List Choice,
        (process_gpt_sql_response conns suffixes (Response.ok choices) messages).length =
          choices.length ∧
        (∀ k : Nat,
          (process_gpt_sql_response conns suffixes (Response.ok choices) messages).get? k =
            (choices.get? k).map
              (fun c => process_choice (conns k) ("view_" ++ suffixes k) messages c)) ∧
        (∀ cand ∈ process_gpt_sql_response conns suffixes (Response.ok choices) messages,
          (cand.status = "ok" ∨ cand.status = "error") ∧
          cand.agent = some "SQLDataTransformationAgent")) ∧
      (∀ (conn : Conn) (table_name : String) (choice : Choice),
        (process_choice conn table_name messages choice).dialog =
          some (messages ++ [⟨choice.role, choice.content⟩])) := by
  intro conns suffixes messages
  refine ⟨fun body => rfl, fun choices => ⟨?_, ?_, ?_⟩, fun conn table_name choice => rfl⟩
  · exact processChoices_length conns suffixes messages 0 choices
  · intro k
    have h := processChoices_get? conns suffixes messages choices 0 k
    simpa using h
  · intro cand h
    exact processChoices_status conns suffixes messages choices 0 cand h

theorem aggregator_one_candidate_per_choice_witness :
    process_gpt_sql_response (fun _ => conn0) (fun _ => "abcd")
        (Response.exn "boom") [] =
      [⟨"other error", Content.text "boom", none, none, none, none⟩] ∧
    (process_gpt_sql_response (fun _ => conn0) (fun _ => "abcd")
        (Response.ok [⟨"assistant", "hello"⟩]) []).length = 1 ∧
    ((process_choice conn0 ("view_" ++ "abcd") []
        ⟨"assistant", "hello"⟩).status = "ok" ∨
      (process_choice conn0 ("view_" ++ "abcd") []
        ⟨"assistant", "hello"⟩).status = "error") := by
  have h := aggregator_one_candidate_per_choice (fun _ => conn0) (fun _ => "abcd") []
  refine ⟨h.1 "boom", (h.2.1 [⟨"assistant", "hello"⟩]).1, ?_⟩
  exact ((h.2.1 [⟨"assistant", "hello"⟩]).2.2
    (process_choice conn0 ("view_" ++ "abcd") [] ⟨"assistant", "hello"⟩)
    (by simp [process_gpt_sql_response, processChoices])).1

/-! ## Roundtrip lemmas for the serializer and the parser model (C2) -/

theorem digitChar_spec (d : Nat) :
    (digitChar d).isDigit = true ∧ isWsChar (digitChar d) = false ∧
    digitChar d ≠ '\x7b' ∧ digitChar d ≠ '\x7d' ∧ digitChar d ≠ '[' ∧ digitChar d ≠ ']' := by
  have h9 : ('9' : Char).isDigit = true ∧ isWsChar '9' = false ∧
      ('9' : Char) ≠ '\x7b' ∧ ('9' : Char) ≠ '\x7d' ∧ ('9' : Char) ≠ '[' ∧
      ('9' : Char) ≠ ']' := by decide
  rcases d with _ | _ | _ | _ | _ | _ | _ | _ | _ | d
  · decide
  · decide
  · decide
  · decide
  · decide
  · decide
  · decide
  · decide
  · decide
  · exact h9

theorem digitChar_toNat (d : Nat) (h : d < 10) : (digitChar d).toNat = 48 + d := by
  interval_cases d <;> decide

theorem isDigit_char_facts (c : Char) (h : c.isDigit = true) :
    isWsChar c = false ∧ c ≠ '\x7b' ∧ c ≠ '\x7d' ∧ c ≠ '[' ∧ c ≠ ']' ∧ c ≠ '"' ∧
      c ≠ '\\' ∧ c ≠ ',' ∧ c ≠ ':' ∧ c ≠ '-' := by
  refine ⟨?_, ?_, ?_, ?_, ?_, ?_, ?_, ?_, ?_, ?_⟩
  · cases hw : isWsChar c with
    | false => rfl
    | true =>
      exfalso
      simp only [isWsChar, Bool.or_eq_true, decide_eq_true_eq] at hw
      rcases hw with ((rfl | rfl) | rfl) | rfl <;> exact absurd h (by decide)
  all_goals (rintro rfl; exact absurd h (by decide))

theorem serNatChars_spec (n : Nat) :
    serNatChars n ≠ [] ∧ ∀ c ∈ serNatChars n, c.isDigit = true := by
  induction n using Nat.strong_induction_on with
  | _ n ih =>
    rw [serNatChars]
    by_cases h : n < 10
    · rw [if_pos h]
      refine ⟨by simp, ?_⟩
      intro c hc
      simp only [List.mem_singleton] at hc
      subst hc
      exact (digitChar_spec n).1
    · rw [if_neg h]
      obtain ⟨h1, h2⟩ := ih (n / 10) (Nat.div_lt_self (by omega) (by omega))
      refine ⟨by simp, ?_⟩
      intro c hc
      rw [List.mem_append] at hc
      rcases hc with hc | hc
      · exact h2 c hc
      · simp only [List.mem_singleton] at hc
        subst hc
        exact (digitChar_spec (n % 10)).1

theorem takeDigits_append (ds rest : List Char) (hds : ∀ c ∈ ds, c.isDigit = true)
    (hrest : rest = [] ∨ ∃ c t, rest = c :: t ∧ c.isDigit = false) :
    takeDigits (ds ++ rest) = (ds, rest) := by
  induction ds with
  | nil =>
    simp only [List.nil_append]
    rcases hrest with rfl | ⟨c, t, rfl, hc⟩
    · rfl
    · simp only [takeDigits]
      rw [if_neg (by simp [hc])]
  | cons d ds' ih =>
    have hd : d.isDigit = true := hds d (by simp)
    rw [List.cons_append]
    simp only [takeDigits]
    rw [if_pos hd, ih (fun c hc => hds c (by simp [hc]))]

theorem parseNat_foldl (n : Nat) :
    ∀ a : Nat, (serNatChars n).foldl (fun a c => a * 10 + (c.toNat - 48)) a =
      a * 10 ^ (serNatChars n).length + n := by
  induction n using Nat.strong_induction_on with
  | _ n ih =>
    intro a
    rw [serNatChars]
    by_cases h : n < 10
    · rw [if_pos h]
      simp only [List.foldl_cons, List.foldl_nil, List.length_singleton]
      rw [digitChar_toNat n h]
      simp only [pow_one]
      omega
    · rw [if_neg h]
      rw [List.foldl_append, ih (n / 10) (Nat.div_lt_self (by omega) (by omega)) a]
      simp only [List.foldl_cons, List.foldl_nil, List.length_append, List.length_singleton]
      rw [digitChar_toNat (n % 10) (by omega), pow_succ, ← Nat.mul_assoc, Nat.add_mul]
      omega

theorem parseNatChars_ser (n : Nat) : parseNatChars (serNatChars n) = n := by
  have h := parseNat_foldl n 0
  simpa [parseNatChars] using h

theorem parseStrBody_quote (rest : List Char) :
    parseStrBody ('"' :: rest) = some ([], rest) := by
  rw [parseStrBody.eq_def]
  rfl

theorem parseStrBody_escape (e : Char) (rest' : List Char) :
    parseStrBody ('\\' :: e :: rest') =
      (match unescape e with
       | some u =>
         match parseStrBody rest' with
         | some (s, r) => some (u :: s, r)
         | none => none
       | none => none) := by
  rw [parseStrBody.eq_def]
  rfl

theorem parseStrBody_plain (c : Char) (rest : List Char) (h1 : ¬ c = '"') (h2 : ¬ c = '\\') :
    parseStrBody (c :: rest) =
      (match parseStrBody rest with
       | some (s, r) => some (c :: s, r)
       | none => none) := by
  rw [parseStrBody.eq_def]
  show (if c = '"' then some ([], rest)
        else if c = '\\' then
          match rest with
          | [] => none
          | e :: rest' =>
            match unescape e with
            | some u =>
              match parseStrBody rest' with
              | some (s, r) => some (u :: s, r)
              | none => none
            | none => none
        else
          match parseStrBody rest with
          | some (s, r) => some (c :: s, r)
          | none => none) = _
  rw [if_neg h1, if_neg h2]

theorem parseStrBody_esc (s : List Char) :
    ∀ rest, parseStrBody (escChars s ++ '"' :: rest) = some (s, rest) := by
  induction s with
  | nil =>
    intro rest
    have he : escChars [] = [] := rfl
    rw [he, List.nil_append, parseStrBody_quote]
  | cons c t ih =>
    intro rest
    by_cases h1 : c = '"'
    · subst h1
      have he : escChars ('"' :: t) = '\\' :: '"' :: escChars t := by
        simp [escChars]
      rw [he, List.cons_append, List.cons_append, parseStrBody_escape]
      rw [show unescape '"' = some '"' from rfl, ih rest]
    · by_cases h2 : c = '\\'
      · subst h2
        have he : escChars ('\\' :: t) = '\\' :: '\\' :: escChars t := by
          simp [escChars]
        rw [he, List.cons_append, List.cons_append, parseStrBody_escape]
        rw [show unescape '\\' = some '\\' from rfl, ih rest]
      · have he : escChars (c :: t) = c :: escChars t := by
          simp only [escChars]
          rw [if_neg h1, if_neg h2]
        rw [he, List.cons_append, parseStrBody_plain c _ h1 h2, ih rest]

/-! ## Bracket balance of serialized values -/

theorem noBrackets_take {l : List Char} (h : noBrackets l) (n : Nat) :
    noBrackets (l.take n) :=
  fun c hc => h c (List.take_subset n l hc)

theorem count_eq_zero_of_noBrackets {l : List Char} (h : noBrackets l) (bt : BracketType) :
    l.count (openChar bt) = 0 ∧ l.count (closeChar bt) = 0 := by
  constructor
  · rw [List.count_eq_zero]
    intro hmem
    have := h _ hmem
    cases bt
    · exact this.1 rfl
    · exact this.2.2.1 rfl
  · rw [List.count_eq_zero]
    intro hmem
    have := h _ hmem
    cases bt
    · exact this.2.1 rfl
    · exact this.2.2.2 rfl

theorem brkBal_append (bt : BracketType) (a b : List Char) :
    brkBal bt (a ++ b) = brkBal bt a + brkBal bt b := by
  simp only [brkBal, List.count_append]
  push_cast
  ring

theorem balOK_of_noBrackets {l : List Char} (h : noBrackets l) : balOK l := by
  constructor
  · intro bt
    have := count_eq_zero_of_noBrackets h bt
    simp [brkBal, this.1, this.2]
  · intro bt n
    have := count_eq_zero_of_noBrackets (noBrackets_take h n) bt
    simp [brkBal, this.1, this.2]

theorem balOK_append {a b : List Char} (ha : balOK a) (hb : balOK b) : balOK (a ++ b) := by
  constructor
  · intro bt
    rw [brkBal_append, ha.1 bt, hb.1 bt]
    norm_num
  · intro bt n
    rw [List.take_append_eq_append_take, brkBal_append]
    have h1 := ha.2 bt n
    have h2 := hb.2 bt (n - a.length)
    omega

theorem count_singleton_ne {c x : Char} (hx : c ≠ x) : List.count x [c] = 0 := by
  simp [List.count_singleton', hx]

theorem notBracketChar_count {c : Char} (h : c ≠ '\x7b' ∧ c ≠ '\x7d' ∧ c ≠ '[' ∧ c ≠ ']')
    (bt : BracketType) : brkBal bt [c] = 0 := by
  cases bt
  · simp [brkBal, openChar, closeChar, count_singleton_ne h.1, count_singleton_ne h.2.1]
  · simp [brkBal, openChar, closeChar, count_singleton_ne h.2.2.1, count_singleton_ne h.2.2.2]

theorem balOK_cons_nb {c : Char} {l : List Char}
    (h : c ≠ '\x7b' ∧ c ≠ '\x7d' ∧ c ≠ '[' ∧ c ≠ ']') (hl : balOK l) : balOK (c :: l) := by
  have hsingle : noBrackets [c] := by
    intro x hx
    simp only [List.mem_singleton] at hx
    subst hx
    exact h
  have := balOK_append (balOK_of_noBrackets hsingle) hl
  simpa using this

/-- Wrapping a balanced inner text in a matching bracket pair of kind `bt0`
preserves balance and prefix-nonnegativity. -/
theorem balOK_wrap (bt0 : BracketType) {inner : List Char} (hin : balOK inner) :
    balOK (openChar bt0 :: inner ++ [closeChar bt0]) := by
  have hclose : ∀ bt, brkBal bt [closeChar bt0] = if bt = bt0 then -1 else 0 := by
    intro bt
    cases bt <;> cases bt0 <;> decide
  have hopen : ∀ bt, brkBal bt [openChar bt0] = if bt = bt0 then 1 else 0 := by
    intro bt
    cases bt <;> cases bt0 <;> decide
  constructor
  · intro bt
    have : openChar bt0 :: inner ++ [closeChar bt0] =
        [openChar bt0] ++ inner ++ [closeChar bt0] := by simp
    rw [this, brkBal_append, brkBal_append, hin.1 bt, hclose bt, hopen bt]
    by_cases h : bt = bt0 <;> simp [h]
  · intro bt n
    cases n with
    | zero => simp [brkBal]
    | succ m =>
      have : (openChar bt0 :: inner ++ [closeChar bt0]).take (m + 1) =
          openChar bt0 :: (inner ++ [closeChar bt0]).take m := by
        simp [List.take_succ_cons]
      rw [this, show openChar bt0 :: (inner ++ [closeChar bt0]).take m =
          [openChar bt0] ++ (inner ++ [closeChar bt0]).take m from rfl]
      rw [brkBal_append, hopen bt, List.take_append_eq_append_take, brkBal_append]
      have h1 := hin.2 bt m
      have h2 : 0 ≤ brkBal bt ([closeChar bt0].take (m - inner.length)) ∨
          brkBal bt ([closeChar bt0].take (m - inner.length)) = if bt = bt0 then -1 else 0 := by
        cases htk : (m - inner.length) with
        | zero => left; simp [brkBal]
        | succ k =>
          right
          have : ([closeChar bt0].take (k + 1)) = [closeChar bt0] := by simp
          rw [this, hclose bt]
      by_cases hbt : bt = bt0
      · rw [if_pos hbt]
        rcases h2 with h2 | h2
        · omega
        · rw [if_pos hbt] at h2
          omega
      · rw [if_neg hbt]
        rcases h2 with h2 | h2
        · omega
        · rw [if_neg hbt] at h2
          omega

theorem noBrackets_of_cons {c : Char} {t : List Char} (h : noBrackets (c :: t)) :
    noBrackets t :=
  fun y hy => h y (by simp [hy])

theorem escChars_noBrackets {s : List Char} (h : noBrackets s) : noBrackets (escChars s) := by
  induction s with
  | nil =>
    intro c hc
    simp [escChars] at hc
  | cons c t ih =>
    intro x hx
    by_cases h1 : c = '"'
    · subst h1
      rw [show escChars ('"' :: t) = '\\' :: '"' :: escChars t from by simp [escChars]] at hx
      simp only [List.mem_cons] at hx
      rcases hx with rfl | rfl | hx
      · decide
      · decide
      · exact ih (noBrackets_of_cons h) x hx
    · by_cases h2 : c = '\\'
      · subst h2
        rw [show escChars ('\\' :: t) = '\\' :: '\\' :: escChars t from by simp [escChars]] at hx
        simp only [List.mem_cons] at hx
        rcases hx with rfl | rfl | hx
        · decide
        · decide
        · exact ih (noBrackets_of_cons h) x hx
      · rw [show escChars (c :: t) = c :: escChars t from by simp [escChars, h1, h2]] at hx
        simp only [List.mem_cons] at hx
        rcases hx with rfl | hx
        · exact h x (by simp)
        · exact ih (noBrackets_of_cons h) x hx

theorem serNatChars_noBrackets (n : Nat) : noBrackets (serNatChars n) := by
  intro c hc
  have hd := (serNatChars_spec n).2 c hc
  have hf := isDigit_char_facts c hd
  exact ⟨hf.2.1, hf.2.2.1, hf.2.2.2.1, hf.2.2.2.2.1⟩

theorem serIntChars_noBrackets (n : Int) : noBrackets (serIntChars n) := by
  intro c hc
  simp only [serIntChars] at hc
  by_cases h : n < 0
  · rw [if_pos h] at hc
    simp only [List.mem_cons] at hc
    rcases hc with rfl | hc
    · decide
    · exact serNatChars_noBrackets _ c hc
  · rw [if_neg h] at hc
    exact serNatChars_noBrackets _ c hc

theorem serItems_balOK : ∀ (xs : List Json), (∀ x ∈ xs, balOK (serVal x)) →
    balOK (serItems xs) := by
  intro xs
  induction xs with
  | nil =>
    intro _
    exact balOK_of_noBrackets (fun c hc => by simp [serItems] at hc)
  | cons x t ih =>
    intro IH
    cases t with
    | nil =>
      rw [show serItems [x] = serVal x from by simp [serItems]]
      exact IH x (by simp)
    | cons y t' =>
      rw [show serItems (x :: y :: t') = serVal x ++ ',' :: serItems (y :: t') from by
        simp [serItems]]
      exact balOK_append (IH x (by simp))
        (balOK_cons_nb (by decide) (ih (fun z hz => IH z (by simp [hz]))))

theorem field_balOK (k : List Char) (v : Json) (hk : noBrackets k) (hv : balOK (serVal v)) :
    balOK ('"' :: escChars k ++ '"' :: ':' :: serVal v) :=
  balOK_cons_nb (by decide)
    (balOK_append (balOK_of_noBrackets (escChars_noBrackets hk))
      (balOK_cons_nb (by decide) (balOK_cons_nb (by decide) hv)))

theorem serFields_balOK : ∀ (fs : List (List Char × Json)),
    (∀ p ∈ fs, noBrackets p.1) → (∀ p ∈ fs, balOK (serVal p.2)) →
    balOK (serFields fs) := by
  intro fs
  induction fs with
  | nil =>
    intro _ _
    exact balOK_of_noBrackets (fun c hc => by simp [serFields] at hc)
  | cons p t ih =>
    intro IHk IHv
    obtain ⟨k, v⟩ := p
    cases t with
    | nil =>
      rw [show serFields [(k, v)] = '"' :: escChars k ++ '"' :: ':' :: serVal v from by
        simp [serFields]]
      exact field_balOK k v (IHk (k, v) (by simp)) (IHv (k, v) (by simp))
    | cons q t' =>
      rw [show serFields ((k, v) :: q :: t') =
          ('"' :: escChars k ++ '"' :: ':' :: serVal v) ++ ',' :: serFields (q :: t') from by
        simp [serFields]]
      exact balOK_append (field_balOK k v (IHk (k, v) (by simp)) (IHv (k, v) (by simp)))
        (balOK_cons_nb (by decide)
          (ih (fun z hz => IHk z (by simp [hz])) (fun z hz => IHv z (by simp [hz]))))

theorem serVal_balOK : ∀ (v : Json), BracketClean v → balOK (serVal v) := by
  have main : ∀ (N : Nat) (v : Json), sizeOf v ≤ N → BracketClean v → balOK (serVal v) := by
    intro N
    induction N with
    | zero =>
      intro v hv
      exfalso
      cases v <;> simp at hv
    | succ N ihN =>
      intro v hv hclean
      cases hclean with
      | null =>
        rw [show serVal Json.null = ['n', 'u', 'l', 'l'] from by simp [serVal]]
        exact balOK_of_noBrackets (by decide)
      | bool b =>
        cases b
        · rw [show serVal (Json.bool false) = ['f', 'a', 'l', 's', 'e'] from by simp [serVal]]
          exact balOK_of_noBrackets (by decide)
        · rw [show serVal (Json.bool true) = ['t', 'r', 'u', 'e'] from by simp [serVal]]
          exact balOK_of_noBrackets (by decide)
      | num n =>
        rw [show serVal (Json.num n) = serIntChars n from by simp [serVal]]
        exact balOK_of_noBrackets (serIntChars_noBrackets n)
      | str s h =>
        rw [show serVal (Json.str s) = '"' :: escChars s ++ ['"'] from by simp [serVal]]
        exact balOK_cons_nb (by decide)
          (balOK_append (balOK_of_noBrackets (escChars_noBrackets h))
            (balOK_of_noBrackets (by decide)))
      | arr xs h =>
        rw [show serVal (Json.arr xs) = '[' :: serItems xs ++ [']'] from by simp [serVal]]
        have hsz : ∀ x ∈ xs, sizeOf x ≤ N := by
          intro x hx
          have h1 := List.sizeOf_lt_of_mem hx
          have h2 : sizeOf (Json.arr xs) = 1 + sizeOf xs := by simp
          omega
        have hin := serItems_balOK xs (fun x hx => ihN x (hsz x hx) (h x hx))
        exact balOK_wrap BracketType.square hin
      | obj fs hk hv2 =>
        rw [show serVal (Json.obj fs) = '\x7b' :: serFields fs ++ ['\x7d'] from by
          simp [serVal]]
        have hsz : ∀ p ∈ fs, sizeOf p.2 ≤ N := by
          intro p hp
          have h1 := List.sizeOf_lt_of_mem hp
          have h2 : sizeOf (Json.obj fs) = 1 + sizeOf fs := by simp
          obtain ⟨k, w⟩ := p
          have h3 : sizeOf ((k, w) : List Char × Json) = 1 + sizeOf k + sizeOf w := by simp
          simp only at h1 ⊢
          omega
        have hin := serFields_balOK fs hk (fun p hp => ihN p.2 (hsz p hp) (hv2 p hp))
        exact balOK_wrap BracketType.curly hin
  intro v
  exact main (sizeOf v) v (le_refl _)

theorem serVal_head (v : Json) :
    ∃ c t, serVal v = c :: t ∧ isWsChar c = false ∧ c ≠ ']' ∧ c ≠ '\x7d' := by
  cases v with
  | null =>
    exact ⟨'n', ['u', 'l', 'l'], by simp [serVal], by decide, by decide, by decide⟩
  | bool b =>
    cases b
    · exact ⟨'f', ['a', 'l', 's', 'e'], by simp [serVal], by decide, by decide, by decide⟩
    · exact ⟨'t', ['r', 'u', 'e'], by simp [serVal], by decide, by decide, by decide⟩
  | num n =>
    by_cases h : n < 0
    · refine ⟨'-', serNatChars (-n).toNat, ?_, by decide, by decide, by decide⟩
      rw [show serVal (Json.num n) = serIntChars n from by simp [serVal]]
      simp only [serIntChars]
      rw [if_pos h]
    · obtain ⟨hne, hdig⟩ := serNatChars_spec n.toNat
      obtain ⟨c, t, hct⟩ := List.exists_cons_of_ne_nil hne
      have hd := hdig c (by rw [hct]; simp)
      obtain ⟨hw, _, hcb, _, hsb, _, _, _, _, _⟩ := isDigit_char_facts c hd
      refine ⟨c, t, ?_, hw, hsb, hcb⟩
      rw [show serVal (Json.num n) = serIntChars n from by simp [serVal]]
      simp only [serIntChars]
      rw [if_neg h, hct]
  | str s =>
    exact ⟨'"', escChars s ++ ['"'], by simp [serVal], by decide, by decide, by decide⟩
  | arr xs =>
    exact ⟨'[', serItems xs ++ [']'], by simp [serVal], by decide, by decide, by decide⟩
  | obj fs =>
    exact ⟨'\x7b', serFields fs ++ ['\x7d'], by simp [serVal], by decide, by decide, by decide⟩

/-! ## The bracket matcher on serialized values -/

theorem brkBal_eq_chBal (bt : BracketType) (l : List Char) :
    brkBal bt l = chBal (openChar bt) (closeChar bt) l := rfl

theorem chBal_cons_open (ob cb : Char) (hne : ob ≠ cb) (l : List Char) :
    chBal ob cb (ob :: l) = 1 + chBal ob cb l := by
  simp only [chBal, List.count_cons, beq_self_eq_true, if_true]
  rw [if_neg (by simp [hne])]
  push_cast
  ring

theorem chBal_cons_close (ob cb : Char) (hne : ob ≠ cb) (l : List Char) :
    chBal ob cb (cb :: l) = chBal ob cb l - 1 := by
  simp only [chBal, List.count_cons, beq_self_eq_true, if_true]
  rw [if_neg (by simp [Ne.symm hne])]
  push_cast
  ring

theorem chBal_cons_other (ob cb c : Char) (hc : c ≠ ob) (hcb : c ≠ cb) (l : List Char) :
    chBal ob cb (c :: l) = chBal ob cb l := by
  simp only [chBal, List.count_cons]
  rw [if_neg (by simp [hc]), if_neg (by simp [hcb])]
  push_cast
  ring

theorem fmbGo_through (ob cb : Char) (hne : ob ≠ cb) :
    ∀ (mid rest : List Char) (idx h : Nat), 1 ≤ h →
      (∀ n, 0 ≤ (h : Int) - 1 + chBal ob cb (mid.take n)) →
      fmbGo ob cb (mid ++ rest) idx (List.replicate h ob) =
        fmbGo ob cb rest (idx + mid.length)
          (List.replicate ((h : Int) + chBal ob cb mid).toNat ob) := by
  intro mid
  induction mid with
  | nil =>
    intro rest idx h h1 _
    simp [chBal]
  | cons c mid' ih =>
    intro rest idx h h1 hpre
    rw [List.cons_append]
    by_cases hc : c = ob
    · subst hc
      simp only [fmbGo, if_pos rfl]
      have hrep : (c :: List.replicate h c) = List.replicate (h + 1) c :=
        (List.replicate_succ c h).symm
      rw [hrep, ih rest (idx + 1) (h + 1) (by omega) ?_]
      · rw [show idx + 1 + mid'.length = idx + (c :: mid').length from by simp; omega]
        rw [show ((h + 1 : Nat) : Int) + chBal c cb mid' =
            (h : Int) + chBal c cb (c :: mid') from by
          rw [chBal_cons_open c cb hne mid']
          push_cast
          ring]
        exact if_pos trivial
      · intro n
        have := hpre (n + 1)
        rw [List.take_succ_cons, chBal_cons_open c cb hne] at this
        push_cast at this ⊢
        omega
    · by_cases hcb : c = cb
      · subst hcb
        obtain ⟨k, rfl⟩ : ∃ k, h = k + 1 := ⟨h - 1, by omega⟩
        have hk : 1 ≤ k := by
          have h0 := hpre 1
          rw [List.take_succ_cons, List.take_zero,
            chBal_cons_close ob c (fun hh => hc hh.symm) []] at h0
          simp [chBal] at h0
          omega
        obtain ⟨j, rfl⟩ : ∃ j, k = j + 1 := ⟨k - 1, by omega⟩
        simp only [fmbGo, if_neg hc, if_pos rfl, List.replicate_succ]
        rw [if_neg (List.cons_ne_nil _ _), ← List.replicate_succ]
        rw [ih rest (idx + 1) (j + 1) (by omega) ?_]
        · rw [show idx + 1 + mid'.length = idx + (c :: mid').length from by simp; omega]
          rw [show ((j + 1 : Nat) : Int) + chBal ob c mid' =
              ((j + 1 + 1 : Nat) : Int) + chBal ob c (c :: mid') from by
            rw [chBal_cons_close ob c (fun hh => hc hh.symm) mid']
            push_cast
            ring]
          exact if_pos trivial
        · intro n
          have := hpre (n + 1)
          rw [List.take_succ_cons, chBal_cons_close ob c (fun hh => hc hh.symm)] at this
          push_cast at this ⊢
          omega
      · simp only [fmbGo, if_neg hc, if_neg hcb]
        rw [ih rest (idx + 1) h h1 ?_]
        · rw [show idx + 1 + mid'.length = idx + (c :: mid').length from by simp; omega]
          rw [chBal_cons_other ob cb c hc hcb mid']
        · intro n
          have := hpre (n + 1)
          rw [List.take_succ_cons, chBal_cons_other ob cb c hc hcb] at this
          exact this

theorem openChar_ne_closeChar (bt : BracketType) : openChar bt ≠ closeChar bt := by
  cases bt <;> decide

/-- The bracket matcher started on the opening bracket of a balanced,
prefix-nonnegative inner text finds the final closing bracket. -/
theorem find_matching_wrapped (bt : BracketType) (pre inner post : List Char)
    (hbal : brkBal bt inner = 0) (hpre : ∀ n, 0 ≤ brkBal bt (inner.take n)) :
    find_matching_bracket (pre ++ (openChar bt :: inner ++ [closeChar bt]) ++ post)
        pre.length bt = ((pre.length + 1 + inner.length : Nat) : Int) := by
  have hstart : ∀ (tail : List Char) (idx : Nat),
      fmbGo (openChar bt) (closeChar bt) (openChar bt :: tail) idx [] =
        fmbGo (openChar bt) (closeChar bt) tail (idx + 1) [openChar bt] := by
    intro tail idx
    cases bt <;> simp [fmbGo, openChar, closeChar]
  have hfinal : ∀ (post' : List Char) (idx : Nat),
      fmbGo (openChar bt) (closeChar bt) (closeChar bt :: post') idx [openChar bt] =
        (idx : Int) := by
    intro post' idx
    cases bt <;> simp [fmbGo, openChar, closeChar]
  unfold find_matching_bracket
  have hd : (pre ++ (openChar bt :: inner ++ [closeChar bt]) ++ post).drop pre.length =
      openChar bt :: (inner ++ (closeChar bt :: post)) := by
    rw [List.append_assoc, List.drop_left]
    simp
  rw [hd, hstart]
  have hstep := fmbGo_through (openChar bt) (closeChar bt) (openChar_ne_closeChar bt)
    inner (closeChar bt :: post) (pre.length + 1) 1 (le_refl 1) ?_
  · rw [show ([openChar bt] : List Char) = List.replicate 1 (openChar bt) from rfl, hstep]
    rw [show ((1 : Nat) : Int) + chBal (openChar bt) (closeChar bt) inner = 1 from by
      rw [← brkBal_eq_chBal, hbal]
      ring]
    rw [show ((1 : Int)).toNat = 1 from rfl,
      show List.replicate 1 (openChar bt) = [openChar bt] from rfl, hfinal]
  · intro n
    have := hpre n
    rw [brkBal_eq_chBal] at this
    push_cast
    omega

theorem findFromGo_append_not_mem (c : Char) :
    ∀ (l r : List Char) (i : Nat), c ∉ l →
      findFromGo c (l ++ r) i = findFromGo c r (i + l.length) := by
  intro l
  induction l with
  | nil => intro r i _; simp
  | cons x t ih =>
    intro r i h
    have hx : ¬ x = c := fun hh => h (by simp [hh])
    rw [List.cons_append]
    simp only [findFromGo, if_neg hx]
    rw [ih r (i + 1) (fun hm => h (by simp [hm]))]
    congr 1
    simp
    omega

theorem findFromGo_not_mem (c : Char) (l : List Char) (i : Nat) (h : c ∉ l) :
    findFromGo c l i = -1 := by
  have := findFromGo_append_not_mem c l [] i h
  simpa using this

theorem findFromGo_cons_self (c : Char) (t : List Char) (i : Nat) :
    findFromGo c (c :: t) i = (i : Int) := by
  simp [findFromGo]

theorem str_find_embedded_self (pre rest : List Char) (c : Char) (h : c ∉ pre) :
    str_find (pre ++ c :: rest) c 0 = (pre.length : Int) := by
  unfold str_find
  rw [List.drop_zero, findFromGo_append_not_mem c pre (c :: rest) 0 h, findFromGo_cons_self]
  norm_num

theorem str_find_embedded_other (pre rest : List Char) (c x : Char) (hpre : x ∉ pre)
    (hne : ¬ c = x) :
    str_find (pre ++ c :: rest) x 0 = -1 ∨
      ((pre.length : Int) + 1) ≤ str_find (pre ++ c :: rest) x 0 := by
  unfold str_find
  rw [List.drop_zero, findFromGo_append_not_mem x pre (c :: rest) 0 hpre]
  simp only [findFromGo, if_neg hne]
  rcases findFromGo_ge x rest (0 + pre.length + 1) with h | h
  · exact Or.inl h
  · right
    refine le_trans ?_ h
    push_cast
    omega

/-- The earliest bracket of `pre ++ (open :: rest)` with bracket-free `pre` is
the embedded opening bracket. -/
theorem earliestBracket_embedded (pre rest : List Char) (bt : BracketType)
    (hpre : noBrackets pre) :
    earliestBracket (pre ++ openChar bt :: rest) 0 = some (pre.length, bt) := by
  have hnotin : ∀ (x : Char), (x = '\x7b' ∨ x = '\x7d' ∨ x = '[' ∨ x = ']') → x ∉ pre := by
    intro x hx hmem
    have := hpre x hmem
    rcases hx with rfl | rfl | rfl | rfl
    · exact this.1 rfl
    · exact this.2.1 rfl
    · exact this.2.2.1 rfl
    · exact this.2.2.2 rfl
  cases bt with
  | curly =>
    have hob : str_find (pre ++ '\x7b' :: rest) '\x7b' 0 = (pre.length : Int) :=
      str_find_embedded_self pre rest '\x7b' (hnotin _ (by simp))
    have has := str_find_embedded_other pre rest '\x7b' '[' (hnotin _ (by simp)) (by decide)
    rcases has with hA | hA
    · simp only [earliestBracket, openChar, hob, hA]
      rw [if_neg (fun hcon => by omega), if_neg (by omega), if_pos trivial]
      simp
    · simp only [earliestBracket, openChar, hob]
      rw [if_neg (fun hcon => by omega), if_neg (by omega),
        if_neg (by omega),
        show min ((pre.length : Int)) (str_find (pre ++ '\x7b' :: rest) '[' 0) =
          (pre.length : Int) from min_eq_left (by omega),
        if_neg (by omega)]
      simp
  | square =>
    have has : str_find (pre ++ '[' :: rest) '[' 0 = (pre.length : Int) :=
      str_find_embedded_self pre rest '[' (hnotin _ (by simp))
    have hob := str_find_embedded_other pre rest '[' '\x7b' (hnotin _ (by simp)) (by decide)
    rcases hob with hB | hB
    · simp only [earliestBracket, openChar, has, hB]
      rw [if_neg (fun hcon => by omega), if_pos trivial]
      simp
    · simp only [earliestBracket, openChar, has]
      rw [if_neg (fun hcon => by omega), if_neg (by omega),
        if_neg (by omega),
        show min (str_find (pre ++ '[' :: rest) '\x7b' 0) ((pre.length : Int)) =
          (pre.length : Int) from min_eq_right (by omega),
        if_pos rfl]
      simp

/-! ## Roundtrip: the parser model recovers serialized values -/

theorem skipWs_cons_not (c : Char) (t : List Char) (h : isWsChar c = false) :
    skipWs (c :: t) = c :: t := by
  simp [skipWs, h]

theorem goodFollow_comma (t : List Char) : goodFollow (',' :: t) :=
  Or.inr ⟨',', t, rfl, Or.inl rfl⟩

theorem goodFollow_rsquare (t : List Char) : goodFollow (']' :: t) :=
  Or.inr ⟨']', t, rfl, Or.inr (Or.inl rfl)⟩

theorem goodFollow_rcurly (t : List Char) : goodFollow ('\x7d' :: t) :=
  Or.inr ⟨'\x7d', t, rfl, Or.inr (Or.inr rfl)⟩

theorem parse_ser_items : ∀ (zs : List Json), zs ≠ [] →
    (∀ x ∈ zs, ParsesBack x) →
    ∀ (fuel : Nat) (rest : List Char), needItems zs ≤ fuel → goodFollow rest →
      parseArrItems fuel (serItems zs ++ (']' :: rest)) = some (zs, rest) := by
  intro zs
  induction zs with
  | nil => intro h; exact absurd rfl h
  | cons z t ih =>
    intro _ IH fuel rest hfuel hrest
    obtain ⟨fuel, rfl⟩ : ∃ g, fuel = g + 1 := by
      cases fuel with
      | zero => simp [needItems] at hfuel
      | succ g => exact ⟨g, rfl⟩
    have hneed : needItems (z :: t) = 1 + max (needVal z) (needItems t) := by
      simp [needItems]
    obtain ⟨c, ctail, hct, hw, hrb, hcb⟩ := serVal_head z
    cases t with
    | nil =>
      have hser : serItems [z] ++ (']' :: rest) = c :: (ctail ++ (']' :: rest)) := by
        rw [show serItems [z] = serVal z from by simp [serItems], hct]
        simp
      rw [hser]
      simp only [parseArrItems, skipWs_cons_not c _ hw]
      rw [if_neg hrb]
      rw [show c :: (ctail ++ (']' :: rest)) = serVal z ++ (']' :: rest) from by
        rw [hct]; simp]
      rw [IH z (by simp) fuel (']' :: rest) (by omega) (goodFollow_rsquare rest)]
      simp [skipWs_cons_not ']' rest (by decide)]
    | cons w t' =>
      have hser : serItems (z :: w :: t') ++ (']' :: rest) =
          c :: (ctail ++ (',' :: (serItems (w :: t') ++ (']' :: rest)))) := by
        rw [show serItems (z :: w :: t') = serVal z ++ ',' :: serItems (w :: t') from by
          simp [serItems], hct]
        simp
      rw [hser]
      simp only [parseArrItems, skipWs_cons_not c _ hw]
      rw [if_neg hrb]
      rw [show c :: (ctail ++ (',' :: (serItems (w :: t') ++ (']' :: rest)))) =
          serVal z ++ (',' :: (serItems (w :: t') ++ (']' :: rest))) from by
        rw [hct]; simp]
      rw [IH z (by simp) fuel _ (by omega) (goodFollow_comma _)]
      have hrec := ih (by simp) (fun x hx => IH x (by simp [hx])) fuel rest
        (by
          rw [hneed] at hfuel
          omega) hrest
      simp [skipWs_cons_not ',' (serItems (w :: t') ++ (']' :: rest)) (by decide), hrec]

theorem parse_ser_fields : ∀ (fs : List (List Char × Json)), fs ≠ [] →
    (∀ p ∈ fs, ParsesBack p.2) →
    ∀ (fuel : Nat) (rest : List Char), needFields fs ≤ fuel → goodFollow rest →
      parseObjFields fuel (serFields fs ++ ('\x7d' :: rest)) = some (fs, rest) := by
  intro fs
  induction fs with
  | nil => intro h; exact absurd rfl h
  | cons p t ih =>
    intro _ IH fuel rest hfuel hrest
    obtain ⟨k, v⟩ := p
    obtain ⟨fuel, rfl⟩ : ∃ g, fuel = g + 1 := by
      cases fuel with
      | zero => simp [needFields] at hfuel
      | succ g => exact ⟨g, rfl⟩
    have hneed : needFields ((k, v) :: t) = 1 + max (needVal v) (needFields t) := by
      simp [needFields]
    cases t with
    | nil =>
      have hser : serFields [(k, v)] ++ ('\x7d' :: rest) =
          '"' :: (escChars k ++ ('"' :: (':' :: (serVal v ++ ('\x7d' :: rest))))) := by
        rw [show serFields [(k, v)] = '"' :: escChars k ++ '"' :: ':' :: serVal v from by
          simp [serFields]]
        simp
      rw [hser]
      simp only [parseObjFields, skipWs_cons_not '"' _ (by decide)]
      have hstr := parseStrBody_esc k (':' :: (serVal v ++ ('\x7d' :: rest)))
      have hskc := skipWs_cons_not ':' (serVal v ++ ('\x7d' :: rest)) (by decide)
      have hpv : parseVal fuel (serVal v ++ ('\x7d' :: rest)) = some (v, '\x7d' :: rest) :=
        IH (k, v) (by simp) fuel ('\x7d' :: rest)
          (by rw [hneed] at hfuel; show needVal v ≤ fuel; omega) (goodFollow_rcurly rest)
      have hskd := skipWs_cons_not '\x7d' rest (by decide)
      simp [hstr, hskc, hpv, hskd]
    | cons q t' =>
      have hser : serFields ((k, v) :: q :: t') ++ ('\x7d' :: rest) =
          '"' :: (escChars k ++ ('"' :: (':' ::
            (serVal v ++ (',' :: (serFields (q :: t') ++ ('\x7d' :: rest))))))) := by
        rw [show serFields ((k, v) :: q :: t') =
            ('"' :: escChars k ++ '"' :: ':' :: serVal v) ++ ',' :: serFields (q :: t') from by
          simp [serFields]]
        simp
      rw [hser]
      simp only [parseObjFields, skipWs_cons_not '"' _ (by decide)]
      have hstr := parseStrBody_esc k
        (':' :: (serVal v ++ (',' :: (serFields (q :: t') ++ ('\x7d' :: rest)))))
      have hskc := skipWs_cons_not ':'
        (serVal v ++ (',' :: (serFields (q :: t') ++ ('\x7d' :: rest)))) (by decide)
      have hpv : parseVal fuel
          (serVal v ++ (',' :: (serFields (q :: t') ++ ('\x7d' :: rest)))) =
          some (v, ',' :: (serFields (q :: t') ++ ('\x7d' :: rest))) :=
        IH (k, v) (by simp) fuel _
          (by rw [hneed] at hfuel; show needVal v ≤ fuel; omega) (goodFollow_comma _)
      have hskm := skipWs_cons_not ','
        (serFields (q :: t') ++ ('\x7d' :: rest)) (by decide)
      have hrec := ih (by simp) (fun x hx => IH x (by simp [hx])) fuel rest
        (by rw [hneed] at hfuel; omega) hrest
      simp [hstr, hskc, hpv, hskm, hrec]

theorem goodFollow_not_digit {rest : List Char} (hrest : goodFollow rest) :
    rest = [] ∨ ∃ c t, rest = c :: t ∧ c.isDigit = false := by
  rcases hrest with rfl | ⟨c, t, rfl, hc⟩
  · exact Or.inl rfl
  · right
    refine ⟨c, t, rfl, ?_⟩
    rcases hc with rfl | rfl | rfl <;> decide

theorem parse_serVal : ∀ (v : Json), ParsesBack v := by
  have main : ∀ (N : Nat) (v : Json), sizeOf v ≤ N → ParsesBack v := by
    intro N
    induction N with
    | zero =>
      intro v hv
      exfalso
      cases v <;> simp at hv
    | succ N ihN =>
      intro v hv fuel rest hfuel hrest
      obtain ⟨f, rfl⟩ : ∃ f, fuel = f + 1 := by
        cases fuel with
        | zero =>
          exfalso
          cases v <;> simp [needVal] at hfuel
        | succ f => exact ⟨f, rfl⟩
      cases v with
      | null =>
        rw [show serVal Json.null ++ rest = 'n' :: 'u' :: 'l' :: 'l' :: rest from by
          rw [show serVal Json.null = ['n', 'u', 'l', 'l'] from by simp [serVal]]
          rfl]
        have hdig : ('n' : Char).isDigit = false := by decide
        simp [parseVal, skipWs, isWsChar, hdig]
      | bool b =>
        cases b
        · rw [show serVal (Json.bool false) ++ rest = 'f' :: 'a' :: 'l' :: 's' :: 'e' :: rest
            from by
            rw [show serVal (Json.bool false) = ['f', 'a', 'l', 's', 'e'] from by
              simp [serVal]]
            rfl]
          have hdig : ('f' : Char).isDigit = false := by decide
          simp [parseVal, skipWs, isWsChar, hdig]
        · rw [show serVal (Json.bool true) ++ rest = 't' :: 'r' :: 'u' :: 'e' :: rest from by
            rw [show serVal (Json.bool true) = ['t', 'r', 'u', 'e'] from by simp [serVal]]
            rfl]
          have hdig : ('t' : Char).isDigit = false := by decide
          simp [parseVal, skipWs, isWsChar, hdig]
      | num n =>
        rw [show serVal (Json.num n) = serIntChars n from by simp [serVal]]
        by_cases hn : n < 0
        · rw [show serIntChars n = '-' :: serNatChars (-n).toNat from by
            simp only [serIntChars]
            rw [if_pos hn]]
          rw [show ('-' :: serNatChars (-n).toNat) ++ rest =
              '-' :: (serNatChars (-n).toNat ++ rest) from rfl]
          simp only [parseVal, skipWs_cons_not '-' _ (by decide)]
          rw [if_neg (by decide : ¬ ('-' : Char) = '\x7b'),
            if_neg (by decide : ¬ ('-' : Char) = '['),
            if_neg (by decide : ¬ ('-' : Char) = '"'), if_true]
          rw [takeDigits_append _ _ (serNatChars_spec (-n).toNat).2
            (goodFollow_not_digit hrest)]
          rw [if_neg (by
            simp only []
            exact (serNatChars_spec (-n).toNat).1)]
          rw [show parseNatChars (serNatChars (-n).toNat) = (-n).toNat from
            parseNatChars_ser _]
          rw [show -((((-n).toNat : Nat) : Int)) = n from by
            rw [Int.toNat_of_nonneg (by omega)]
            ring]
        · obtain ⟨hne, hdig⟩ := serNatChars_spec n.toNat
          obtain ⟨c, t, hct⟩ := List.exists_cons_of_ne_nil hne
          have hd := hdig c (by rw [hct]; simp)
          obtain ⟨hw, hob, hcb, hosb, hcsb, hq, hbs, hcm, hcl, hmn⟩ := isDigit_char_facts c hd
          rw [show serIntChars n = serNatChars n.toNat from by
            simp only [serIntChars]
            rw [if_neg hn]]
          rw [show serNatChars n.toNat ++ rest = c :: (t ++ rest) from by rw [hct]; rfl]
          simp only [parseVal, skipWs_cons_not c _ hw]
          rw [if_neg hob, if_neg hosb, if_neg hq, if_neg hmn, if_pos hd]
          rw [show c :: (t ++ rest) = serNatChars n.toNat ++ rest from by rw [hct]; rfl]
          rw [takeDigits_append _ _ hdig (goodFollow_not_digit hrest)]
          rw [show parseNatChars (serNatChars n.toNat) = n.toNat from parseNatChars_ser _]
          rw [show ((n.toNat : Nat) : Int) = n from Int.toNat_of_nonneg (by omega)]
      | str s =>
        rw [show serVal (Json.str s) = '"' :: escChars s ++ ['"'] from by simp [serVal]]
        rw [show ('"' :: escChars s ++ ['"']) ++ rest = '"' :: (escChars s ++ ('"' :: rest))
          from by simp]
        simp only [parseVal, skipWs_cons_not '"' _ (by decide)]
        rw [if_neg (by decide : ¬ ('"' : Char) = '\x7b'),
          if_neg (by decide : ¬ ('"' : Char) = '['), if_true]
        rw [parseStrBody_esc s rest]
      | arr xs =>
        have hfuel' : needItems xs ≤ f := by
          rw [show needVal (Json.arr xs) = 1 + needItems xs from by simp [needVal]] at hfuel
          omega
        rw [show serVal (Json.arr xs) = '[' :: serItems xs ++ [']'] from by simp [serVal]]
        rw [show ('[' :: serItems xs ++ [']']) ++ rest = '[' :: (serItems xs ++ (']' :: rest))
          from by simp]
        simp only [parseVal, skipWs_cons_not '[' _ (by decide)]
        rw [if_neg (by decide : ¬ ('[' : Char) = '\x7b'), if_true]
        cases xs with
        | nil =>
          obtain ⟨g, rfl⟩ : ∃ g, f = g + 1 := by
            cases f with
            | zero => simp [needItems] at hfuel'
            | succ g => exact ⟨g, rfl⟩
          rw [show serItems ([] : List Json) ++ (']' :: rest) = ']' :: rest from by
            simp [serItems]]
          simp only [parseArrItems, skipWs_cons_not ']' _ (by decide)]
          rw [if_true]
        | cons z t =>
          have hsz : ∀ x ∈ z :: t, sizeOf x ≤ N := by
            intro x hx
            have h1 := List.sizeOf_lt_of_mem hx
            have h2 : sizeOf (Json.arr (z :: t)) = 1 + sizeOf (z :: t) := by simp
            omega
          rw [parse_ser_items (z :: t) (by simp) (fun x hx => ihN x (hsz x hx)) f rest
            hfuel' hrest]
      | obj fs =>
        have hfuel' : needFields fs ≤ f := by
          rw [show needVal (Json.obj fs) = 1 + needFields fs from by simp [needVal]] at hfuel
          omega
        rw [show serVal (Json.obj fs) = '\x7b' :: serFields fs ++ ['\x7d'] from by
          simp [serVal]]
        rw [show ('\x7b' :: serFields fs ++ ['\x7d']) ++ rest =
            '\x7b' :: (serFields fs ++ ('\x7d' :: rest)) from by simp]
        simp only [parseVal, skipWs_cons_not '\x7b' _ (by decide)]
        rw [if_true]
        cases fs with
        | nil =>
          obtain ⟨g, rfl⟩ : ∃ g, f = g + 1 := by
            cases f with
            | zero => simp [needFields] at hfuel'
            | succ g => exact ⟨g, rfl⟩
          rw [show serFields ([] : List (List Char × Json)) ++ ('\x7d' :: rest) =
              '\x7d' :: rest from by simp [serFields]]
          simp only [parseObjFields, skipWs_cons_not '\x7d' _ (by decide)]
          rw [if_true]
        | cons p t =>
          have hsz : ∀ q ∈ p :: t, sizeOf q.2 ≤ N := by
            intro q hq
            have h1 := List.sizeOf_lt_of_mem hq
            have h2 : sizeOf (Json.obj (p :: t)) = 1 + sizeOf (p :: t) := by simp
            obtain ⟨k, w⟩ := q
            have h3 : sizeOf ((k, w) : List Char × Json) = 1 + sizeOf k + sizeOf w := by simp
            simp only at h1 ⊢
            omega
          rw [parse_ser_fields (p :: t) (by simp) (fun q hq => ihN q.2 (hsz q hq)) f rest
            hfuel' hrest]
  intro v
  exact main (sizeOf v) v (le_refl _)

theorem serVal_length_pos (v : Json) : 1 ≤ (serVal v).length := by
  obtain ⟨c, t, h, _⟩ := serVal_head v
  rw [h]
  simp

theorem needItems_le (xs : List Json) (hmem : ∀ x ∈ xs, needVal x ≤ (serVal x).length) :
    needItems xs ≤ (serItems xs).length + 1 := by
  induction xs with
  | nil => simp [needItems, serItems]
  | cons x t ih =>
    have hx := hmem x (by simp)
    have hxlen := serVal_length_pos x
    cases t with
    | nil =>
      rw [show serItems [x] = serVal x from by simp [serItems],
        show needItems [x] = 1 + max (needVal x) (needItems []) from by simp [needItems],
        show needItems ([] : List Json) = 1 from by simp [needItems]]
      omega
    | cons y t' =>
      have ht := ih (fun z hz => hmem z (by simp [hz]))
      rw [show serItems (x :: y :: t') = serVal x ++ ',' :: serItems (y :: t') from by
        simp [serItems],
        show needItems (x :: y :: t') = 1 + max (needVal x) (needItems (y :: t')) from by
        simp [needItems]]
      simp only [List.length_append, List.length_cons]
      omega

theorem needFields_le (fs : List (List Char × Json))
    (hmem : ∀ p ∈ fs, needVal p.2 ≤ (serVal p.2).length) :
    needFields fs ≤ (serFields fs).length + 1 := by
  induction fs with
  | nil => simp [needFields, serFields]
  | cons p t ih =>
    obtain ⟨k, v⟩ := p
    have hv : needVal v ≤ (serVal v).length := hmem (k, v) (by simp)
    have hvlen := serVal_length_pos v
    cases t with
    | nil =>
      rw [show serFields [(k, v)] = '"' :: escChars k ++ '"' :: ':' :: serVal v from by
        simp [serFields],
        show needFields [(k, v)] = 1 + max (needVal v) (needFields []) from by
        simp [needFields],
        show needFields ([] : List (List Char × Json)) = 1 from by simp [needFields]]
      simp only [List.length_cons, List.length_append]
      omega
    | cons q t' =>
      have ht := ih (fun z hz => hmem z (by simp [hz]))
      rw [show serFields ((k, v) :: q :: t') =
          ('"' :: escChars k ++ '"' :: ':' :: serVal v) ++ ',' :: serFields (q :: t') from by
        simp [serFields],
        show needFields ((k, v) :: q :: t') =
          1 + max (needVal v) (needFields (q :: t')) from by simp [needFields]]
      simp only [List.length_cons, List.length_append]
      omega

theorem needVal_le : ∀ (v : Json), needVal v ≤ (serVal v).length := by
  have main : ∀ (N : Nat) (v : Json), sizeOf v ≤ N → needVal v ≤ (serVal v).length := by
    intro N
    induction N with
    | zero =>
      intro v hv
      exfalso
      cases v <;> simp at hv
    | succ N ihN =>
      intro v hv
      cases v with
      | null => simp [needVal, serVal]
      | bool b => cases b <;> simp [needVal, serVal]
      | num n =>
        rw [show needVal (Json.num n) = 1 from by simp [needVal]]
        exact serVal_length_pos _
      | str s =>
        rw [show needVal (Json.str s) = 1 from by simp [needVal]]
        exact serVal_length_pos _
      | arr xs =>
        have hsz : ∀ x ∈ xs, sizeOf x ≤ N := by
          intro x hx
          have h1 := List.sizeOf_lt_of_mem hx
          have h2 : sizeOf (Json.arr xs) = 1 + sizeOf xs := by simp
          omega
        have hit := needItems_le xs (fun x hx => ihN x (hsz x hx))
        rw [show needVal (Json.arr xs) = 1 + needItems xs from by simp [needVal],
          show serVal (Json.arr xs) = '[' :: serItems xs ++ [']'] from by simp [serVal]]
        simp only [List.length_cons, List.length_append]
        omega
      | obj fs =>
        have hsz : ∀ p ∈ fs, sizeOf p.2 ≤ N := by
          intro p hp
          have h1 := List.sizeOf_lt_of_mem hp
          have h2 : sizeOf (Json.obj fs) = 1 + sizeOf fs := by simp
          obtain ⟨k, w⟩ := p
          have h3 : sizeOf ((k, w) : List Char × Json) = 1 + sizeOf k + sizeOf w := by simp
          simp only at h1 ⊢
          omega
        have hfl := needFields_le fs (fun p hp => ihN p.2 (hsz p hp))
        rw [show needVal (Json.obj fs) = 1 + needFields fs from by simp [needVal],
          show serVal (Json.obj fs) = '\x7b' :: serFields fs ++ ['\x7d'] from by simp [serVal]]
        simp only [List.length_cons, List.length_append]
        omega
  intro v
  exact main (sizeOf v) v (le_refl _)

/-- The parser model recovers every serialized value exactly. -/
theorem parseChars_serVal (v : Json) : Json.parseChars (serVal v) = some v := by
  have hb : needVal v ≤ 2 * (serVal v).length + 2 := by
    have := needVal_le v
    omega
  have h := parse_serVal v (2 * (serVal v).length + 2) [] hb (Or.inl rfl)
  rw [List.append_nil] at h
  unfold Json.parseChars
  rw [h]
  simp [skipWs]

theorem earliestBracket_none_of_drop (text : List Char) (s : Nat)
    (h : noBrackets (text.drop s)) : earliestBracket text s = none := by
  have hob : str_find text '\x7b' s = -1 := by
    unfold str_find
    exact findFromGo_not_mem _ _ _ (fun hm => (h _ hm).1 rfl)
  have has : str_find text '[' s = -1 := by
    unfold str_find
    exact findFromGo_not_mem _ _ _ (fun hm => (h _ hm).2.2.1 rfl)
  simp [earliestBracket, hob, has]

/-- C2: amended embedded-extraction property.  For a serialized JSON object or
array whose strings are free of bracket characters, embedded in bracket-free
surrounding prose, `extract_json_objects` returns exactly that value, and the
value round-trips through the parser model unmodified.  (The original claim,
for arbitrary values and arbitrary prose, is refuted by
`extract_embedded_json_counterexample`: a close brace inside a string
desynchronizes the depth-counting bracket matcher.) -/
theorem extract_embedded_json (v : Json) (pre post : List Char)
    (hcont : (∃ xs, v = Json.arr xs) ∨ ∃ fs, v = Json.obj fs)
    (hclean : BracketClean v) (hpre : noBrackets pre) (hpost : noBrackets post) :
    extract_json_objects (pre ++ serVal v ++ post) = [v] ∧
      Json.parseChars (serVal v) = some v := by
  refine ⟨?_, parseChars_serVal v⟩
  obtain ⟨bt, inner, hform, hbalin⟩ :
      ∃ bt inner, serVal v = openChar bt :: inner ++ [closeChar bt] ∧ balOK inner := by
    rcases hcont with ⟨xs, rfl⟩ | ⟨fs, rfl⟩
    · refine ⟨BracketType.square, serItems xs, by simp [serVal, openChar, closeChar], ?_⟩
      cases hclean with
      | arr _ h => exact serItems_balOK xs (fun x hx => serVal_balOK x (h x hx))
    · refine ⟨BracketType.curly, serFields fs, by simp [serVal, openChar, closeChar], ?_⟩
      cases hclean with
      | obj _ hk hv => exact serFields_balOK fs hk (fun p hp => serVal_balOK p.2 (hv p hp))
  have hlen : (serVal v).length = inner.length + 2 := by
    rw [hform]
    simp
  have hEB : earliestBracket (pre ++ serVal v ++ post) 0 = some (pre.length, bt) := by
    rw [show pre ++ serVal v ++ post =
        pre ++ openChar bt :: (inner ++ ([closeChar bt] ++ post)) from by
      rw [hform]
      simp]
    exact earliestBracket_embedded pre _ bt hpre
  have hFM : find_matching_bracket (pre ++ serVal v ++ post) pre.length bt =
      ((pre.length + 1 + inner.length : Nat) : Int) := by
    rw [show pre ++ serVal v ++ post =
        pre ++ (openChar bt :: inner ++ [closeChar bt]) ++ post from by rw [hform]]
    exact find_matching_wrapped bt pre inner post (hbalin.1 bt) (hbalin.2 bt)
  have hslice : sliceList (pre ++ serVal v ++ post) pre.length
      (pre.length + 1 + inner.length + 1) = serVal v := by
    unfold sliceList
    rw [show pre ++ serVal v ++ post = pre ++ (serVal v ++ post) from by simp,
      List.drop_left]
    rw [show pre.length + 1 + inner.length + 1 - pre.length = (serVal v).length from by
      rw [hlen]
      omega]
    exact List.take_left _ _
  have hdrop : (pre ++ serVal v ++ post).drop (pre.length + 1 + inner.length + 1) = post := by
    rw [show pre.length + 1 + inner.length + 1 = (pre ++ serVal v).length from by
      rw [List.length_append, hlen]
      omega]
    exact List.drop_left _ _
  have hnone : earliestBracket (pre ++ serVal v ++ post)
      (pre.length + 1 + inner.length + 1) = none :=
    earliestBracket_none_of_drop _ _ (by rw [hdrop]; exact hpost)
  have hrec : ∀ fuel, extractGo (pre ++ serVal v ++ post) fuel
      (pre.length + 1 + inner.length + 1) = [] := by
    intro fuel
    cases fuel with
    | zero => rfl
    | succ f => simp only [extractGo, hnone]
  unfold extract_json_objects
  simp only [extractGo, hEB]
  rw [hFM]
  rw [if_neg (by omega : ¬ ((pre.length + 1 + inner.length : Nat) : Int) = -1)]
  rw [show ((pre.length + 1 + inner.length : Nat) : Int).toNat =
      pre.length + 1 + inner.length from by omega]
  rw [hslice, parseChars_serVal v]
  rw [hrec]

/-- C2 witness: the array [7] embedded in the prose "see [7] ok" is extracted
exactly, and parses back to itself. -/
theorem extract_embedded_json_witness :
    extract_json_objects (['s', 'e', 'e', ' '] ++ serVal (Json.arr [Json.num 7]) ++
        [' ', 'o', 'k']) = [Json.arr [Json.num 7]] ∧
      Json.parseChars (serVal (Json.arr [Json.num 7])) = some (Json.arr [Json.num 7]) :=
  extract_embedded_json (Json.arr [Json.num 7]) ['s', 'e', 'e', ' '] [' ', 'o', 'k']
    (Or.inl ⟨[Json.num 7], rfl⟩)
    (BracketClean.arr [Json.num 7] (by
      intro x hx
      rw [List.mem_singleton] at hx
      subst hx
      exact BracketClean.num 7))
    (by decide) (by decide)

/-- C2 counterexample to the unamended claim: the text is exactly the valid
JSON object with source form beginning with an open brace, key "a" and the
one-character string value consisting of a close brace; the parser model
accepts it (round-trip), yet `extract_json_objects` on the bare text (empty
surrounding prose) returns nothing, because the depth-counting bracket matcher
counts the close brace inside the string. -/
theorem extract_embedded_json_counterexample :
    Json.parseChars ['\x7b', '"', 'a', '"', ':', ' ', '"', '\x7d', '"', '\x7d'] =
        some (Json.obj [(['a'], Json.str ['\x7d'])]) ∧
      extract_json_objects ['\x7b', '"', 'a', '"', ':', ' ', '"', '\x7d', '"', '\x7d'] =
        [] :=
  ⟨rfl, rfl⟩

end DataFormulator
